import Mathlib

/-!
Verification of the W4GNS-Logger Rust core (`rust_grid_calc`): a shallow
embedding of the Maidenhead grid decoder, the geodesic calculator and the
ADIF codec, together with theorems settling the specification claims.

Strings are modelled as lists of characters; the f64 arithmetic of the
grid decoder is modelled exactly over the rationals (all operations in the
decoder are additions and multiplications by constants); the transcendental
functions of the geodesic calculator are modelled over the reals.
-/

namespace W4G

abbrev Str := List Char

/-! ## Grid decoder (src/lib.rs, grid_to_latlon) -/

/-- Error kinds raised by the grid decoder, mirroring the three distinct
PyValueError messages in grid_to_latlon. -/
inductive GridErr where
  | invalidLength
  | invalidGridDigit
  | invalidExtDigit
  deriving DecidableEq, Repr

/-- Value of a letter character: the Rust code computes
chars[i] as i32 - A as i32 (may be negative, no range check). -/
def letterVal (c : Char) : ℚ := (c.toNat : ℚ) - 65

/-- Model of Rust char::to_digit(10): some value for ASCII 0-9, else none. -/
def charDigit (c : Char) : Option Nat :=
  if c.isDigit then some (c.toNat - 48) else none

/-- Decoding of the optional tail (characters 5.. of the grid string),
mirroring the sequential if chars.len() >= 6 / >= 8 / >= 10 blocks and the
final unconditional lon += 1.0; lat += 0.5 of grid_to_latlon. -/
def extendDecode (lat lon : ℚ) (rest : Str) : Except GridErr (ℚ × ℚ) :=
  match rest with
  | c4 :: c5 :: rest2 =>
    let lon1 := lon + letterVal c4 * (2/24)
    let lat1 := lat + letterVal c5 * (1/24)
    match rest2 with
    | c6 :: c7 :: rest3 =>
      match charDigit c6 with
      | none => .error .invalidExtDigit
      | some d6 =>
        match charDigit c7 with
        | none => .error .invalidExtDigit
        | some d7 =>
          let lon2 := lon1 + (d6 : ℚ) * (2/240)
          let lat2 := lat1 + (d7 : ℚ) * (1/240)
          match rest3 with
          | c8 :: c9 :: _ =>
            .ok (lat2 + letterVal c9 * (1/5760) + 1/2,
                 lon2 + letterVal c8 * (2/5760) + 1)
          | _ => .ok (lat2 + 1/2, lon2 + 1)
    | _ => .ok (lat1 + 1/2, lon1 + 1)
  | _ => .ok (lat + 1/2, lon + 1)

/-- Body of grid_to_latlon after uppercasing: the length guard
(chars.len() < 4 || chars.len() > 10), the two mandatory digit positions,
and the tail. Returns (latitude, longitude). -/
def gridDecodeU (u : Str) : Except GridErr (ℚ × ℚ) :=
  if u.length < 4 ∨ 10 < u.length then .error .invalidLength
  else match u with
  | c0 :: c1 :: c2 :: c3 :: rest =>
    match charDigit c2 with
    | none => .error .invalidGridDigit
    | some d2 =>
      match charDigit c3 with
      | none => .error .invalidGridDigit
      | some d3 =>
        extendDecode (-90 + letterVal c1 * 10 + (d3 : ℚ))
          (-180 + letterVal c0 * 20 + (d2 : ℚ) * 2) rest
  | _ => .error .invalidLength

/-- ASCII uppercasing of a character string (models str::to_uppercase on the
ASCII inputs the decoder is concerned with). -/
def toUp (s : Str) : Str := s.map Char.toUpper

/-- grid_to_latlon: uppercase, then decode. -/
def grid_to_latlon (grid : Str) : Except GridErr (ℚ × ℚ) :=
  gridDecodeU (toUp grid)

/-- Rational value of a digit character. -/
def digQ (c : Char) : ℚ := ((c.toNat - 48 : ℕ) : ℚ)

/-- Latitude of a decoded grid written as the specification phrases it: the
sum of the offsets of every pair present in the input, starting from -90,
plus a final half-cell term (which in the code is always 1/2). -/
def latFormulaU (u : Str) : ℚ :=
  -90 + letterVal (u.getD 1 'A') * 10 + digQ (u.getD 3 'A')
    + (if 6 ≤ u.length then letterVal (u.getD 5 'A') * (1/24) else 0)
    + (if 8 ≤ u.length then digQ (u.getD 7 'A') * (1/240) else 0)
    + (if 10 ≤ u.length then letterVal (u.getD 9 'A') * (1/5760) else 0)
    + 1/2

/-- Longitude of a decoded grid written as the specification phrases it: the
sum of the offsets of every pair present in the input, starting from -180,
plus a final half-cell term (which in the code is always 1). -/
def lonFormulaU (u : Str) : ℚ :=
  -180 + letterVal (u.getD 0 'A') * 20 + digQ (u.getD 2 'A') * 2
    + (if 6 ≤ u.length then letterVal (u.getD 4 'A') * (2/24) else 0)
    + (if 8 ≤ u.length then digQ (u.getD 6 'A') * (2/240) else 0)
    + (if 10 ≤ u.length then letterVal (u.getD 8 'A') * (2/5760) else 0)
    + 1

/-! ## Geodesic calculator (src/lib.rs) -/

/-- deg_to_rad from the source: degrees * PI / 180. -/
noncomputable def deg_to_rad (d : ℝ) : ℝ := d * Real.pi / 180

/-- Mathematical semantics of f64::atan2(y, x): the argument of the complex
number x + y i, in (-pi, pi]. -/
noncomputable def atan2R (y x : ℝ) : ℝ := Complex.arg ⟨x, y⟩

/-- Haversine great-circle distance in km between two decoded coordinates
(latitude, longitude in degrees), Earth radius fixed at 6371 km. -/
noncomputable def haversine_km (c1 c2 : ℚ × ℚ) : ℝ :=
  let lat1 := deg_to_rad (c1.1 : ℝ)
  let lat2 := deg_to_rad (c2.1 : ℝ)
  let dlat := deg_to_rad ((c2.1 : ℝ) - (c1.1 : ℝ))
  let dlon := deg_to_rad ((c2.2 : ℝ) - (c1.2 : ℝ))
  let a := Real.sin (dlat / 2) ^ 2
    + Real.cos lat1 * Real.cos lat2 * Real.sin (dlon / 2) ^ 2
  let c := 2 * atan2R (Real.sqrt a) (Real.sqrt (1 - a))
  6371 * c

/-- calculate_distance: decode both grids (propagating the first error, as
the ? operator does), then apply the haversine formula. -/
noncomputable def calculate_distance (g1 g2 : Str) : Except GridErr ℝ :=
  match grid_to_latlon g1 with
  | .error e => .error e
  | .ok c1 =>
    match grid_to_latlon g2 with
    | .error e => .error e
    | .ok c2 => .ok (haversine_km c1 c2)

/-- batch_calculate_distances: the source loops over the grids pushing
Some(dist) on success and None on error for each element. -/
noncomputable def batch_calculate_distances (home : Str) (grids : List Str) :
    List (Option ℝ) :=
  grids.foldl (fun results g =>
    results ++ [match calculate_distance home g with
      | .ok d => some d
      | .error _ => none]) []

/-- Initial bearing in degrees between two decoded coordinates: the
atan2-based formula of the source, normalized by adding 360 when the raw
result is negative. -/
noncomputable def bearingDeg (c1 c2 : ℚ × ℚ) : ℝ :=
  let lat1 := deg_to_rad (c1.1 : ℝ)
  let lat2 := deg_to_rad (c2.1 : ℝ)
  let dlon := deg_to_rad ((c2.2 : ℝ) - (c1.2 : ℝ))
  let y := Real.sin dlon * Real.cos lat2
  let x := Real.cos lat1 * Real.sin lat2
    - Real.sin lat1 * Real.cos lat2 * Real.cos dlon
  let b := atan2R y x * (180 / Real.pi)
  if b < 0 then b + 360 else b

/-- calculate_bearing: decode both grids, then the bearing formula. -/
noncomputable def calculate_bearing (g1 g2 : Str) : Except GridErr ℝ :=
  match grid_to_latlon g1 with
  | .error e => .error e
  | .ok c1 =>
    match grid_to_latlon g2 with
    | .error e => .error e
    | .ok c2 => .ok (bearingDeg c1 c2)

/-! ## ADIF codec (src/adif.rs) -/

/-- Unicode White_Space, the set Rust char::is_whitespace and str::trim
recognize. -/
def isWS (c : Char) : Bool :=
  decide ((9 ≤ c.toNat ∧ c.toNat ≤ 13) ∨ c.toNat = 32 ∨ c.toNat = 133 ∨
    c.toNat = 160 ∨ c.toNat = 0x1680 ∨
    (0x2000 ≤ c.toNat ∧ c.toNat ≤ 0x200A) ∨
    c.toNat = 0x2028 ∨ c.toNat = 0x2029 ∨ c.toNat = 0x202F ∨
    c.toNat = 0x205F ∨ c.toNat = 0x3000)

def trimStart (s : Str) : Str := s.dropWhile isWS

def trimEnd (s : Str) : Str := (s.reverse.dropWhile isWS).reverse

/-- Rust str::trim: whitespace removed from both ends. -/
def trim (s : Str) : Str := trimEnd (trimStart s)

/-- A record or header dict: insertion-ordered key-value pairs with unique
keys. -/
abbrev Record := List (Str × Str)

/-- Python dict item assignment: replace the value in place when the key is
present, else append the pair at the end. -/
def setItem (r : Record) (k v : Str) : Record :=
  match r with
  | [] => [(k, v)]
  | kv :: rest => if kv.1 = k then (k, v) :: rest else kv :: setItem rest k v

/-- Python dict lookup by exact key. -/
def getItem (r : Record) (k : Str) : Option Str :=
  match r with
  | [] => none
  | kv :: rest => if kv.1 = k then some kv.2 else getItem rest k

/-- Decimal digit character. -/
def digitChar (n : Nat) : Char := Char.ofNat (48 + n)

/-- Decimal digits of a number, most significant first; fuel-structured so
that the kernel can evaluate it (fuel n+1 always suffices). -/
def digitsGo : Nat → Nat → Str
  | 0, _ => []
  | f+1, n =>
    if n < 10 then [digitChar n]
    else digitsGo f (n / 10) ++ [digitChar (n % 10)]

/-- Decimal representation of a number (the format! {} form of a usize). -/
def natDigits (n : Nat) : Str := digitsGo (n + 1) n

/-- Numeric value of a digit string. -/
def digitsVal (s : Str) : Nat := s.foldl (fun a c => 10 * a + (c.toNat - 48)) 0

/-- ASCII digit test (Rust char::is_ascii_digit: code points 48 to 57). -/
def isDigitB (c : Char) : Bool := decide (48 ≤ c.toNat ∧ c.toNat ≤ 57)

/-- Strip one leading plus sign, as usize::from_str allows. -/
def stripPlus (s : Str) : Str :=
  match s with
  | c :: r => if c = '+' then r else c :: r
  | [] => []

/-- Model of length_str.trim().parse::<usize>(): after trimming, an optional
leading plus sign followed by one or more ASCII digits whose value fits in
64 bits. -/
def parseUsize (s : Str) : Option Nat :=
  let t2 := stripPlus (trim s)
  if t2 ≠ [] ∧ t2.all isDigitB ∧ digitsVal t2 < 2 ^ 64 then
    some (digitsVal t2)
  else none

/-- The field-name loop of parse_fields_internal: consume characters until a
colon (consumed), stop without consuming at a stray angle bracket, stop at
the end of input. -/
def readName : Str → Str × Str
  | [] => ([], [])
  | c :: cs =>
    if c = ':' then ([], cs)
    else if c = '>' ∨ c = '<' then ([], c :: cs)
    else
      let p := readName cs
      (c :: p.1, p.2)

/-- The length-token loop of parse_fields_internal: consume characters until
a closing bracket (consumed), stop without consuming at an opening bracket,
stop at the end of input. -/
def readLen : Str → Str × Str
  | [] => ([], [])
  | c :: cs =>
    if c = '>' then ([], cs)
    else if c = '<' then ([], c :: cs)
    else
      let p := readLen cs
      (c :: p.1, p.2)

/-- The scan loop of parse_fields_internal, with one unit of fuel per outer
iteration. Each iteration consumes at least one character, so fuel equal to
the input length always suffices; the function emits the
(uppercased name, trimmed value) pairs in scan order. -/
def pfGo : Nat → Str → List (Str × Str)
  | _, [] => []
  | 0, _ :: _ => []
  | f+1, c :: cs =>
    if c = '<' then
      let pn := readName cs
      if pn.1 = [] then pfGo f pn.2
      else
        let pl := readLen pn.2
        match parseUsize pl.1 with
        | none => pfGo f pl.2
        | some L => (toUp pn.1, trim (pl.2.take L)) :: pfGo f (pl.2.drop L)
    else pfGo f cs

/-- The token stream of parse_fields_internal on a whole input. -/
def parseFieldsAux (text : Str) : List (Str × Str) := pfGo text.length text

/-- parse_fields_internal: every scanned field is stored into the dict with
set_item (uppercased name, trimmed value). -/
def parse_fields (text : Str) : Record :=
  (parseFieldsAux text).foldl (fun d p => setItem d p.1 p.2) []

/-- Option-valued variant of the scanner in which running out of fuel is
observable as none rather than a default value. -/
def pfStep : Nat → Str → Option (List (Str × Str))
  | _, [] => some []
  | 0, _ :: _ => none
  | f+1, c :: cs =>
    if c = '<' then
      let pn := readName cs
      if pn.1 = [] then pfStep f pn.2
      else
        let pl := readLen pn.2
        match parseUsize pl.1 with
        | none => pfStep f pl.2
        | some L => (pfStep f (pl.2.drop L)).map
            (fun r => (toUp pn.1, trim (pl.2.take L)) :: r)
    else pfStep f cs

/-- Boolean test that the first argument starts the second. -/
def isPfx : Str → Str → Bool
  | [], _ => true
  | _ :: _, [] => false
  | p :: ps, c :: cs => p == c && isPfx ps cs

/-- Index of the first occurrence of pat in the text (str::find). -/
def findSub (pat : Str) : Str → Option Nat
  | [] => if isPfx pat [] then some 0 else none
  | c :: cs =>
    if isPfx pat (c :: cs) then some 0
    else (findSub pat cs).map (· + 1)

def hasSub (l pat : Str) : Bool := (findSub pat l).isSome

/-- str::split on a substring pattern, fuel-structured (fuel equal to the
input length plus one always suffices for a nonempty pattern). -/
def splitGo (pat : Str) : Nat → Str → List Str
  | 0, l => [l]
  | f+1, l =>
    match findSub pat l with
    | none => [l]
    | some i => l.take i :: splitGo pat f (l.drop (i + pat.length))

def splitOnSub (l pat : Str) : List Str := splitGo pat (l.length + 1) l

/-- parse_adi: split the input at the first end-of-header sentinel (whole
input is the records section when there is none), parse the part before it
as the header, split the rest on the end-of-record sentinel, parse each
non-blank chunk and keep the records that are non-empty. Returns
(records, header) as the source does. -/
def parse_adi (content : Str) : List Record × Record :=
  let hr : Str × Str :=
    match findSub "<EOH>".data content with
    | some pos => (content.take pos, (content.drop pos).drop 5)
    | none => ([], content)
  let header := parse_fields hr.1
  let records := (splitOnSub hr.2 "<EOR>".data).foldl (fun acc chunk =>
    let t := trim chunk
    if t = [] then acc
    else
      let rec1 := parse_fields t
      if rec1 = [] then acc else acc ++ [rec1]) ([] : List Record)
  (records, header)

/-- batch_parse_records: the records loop of parse_adi applied to a
records-only blob. -/
def batch_parse_records (content : Str) : List Record :=
  (splitOnSub content "<EOR>".data).foldl (fun acc chunk =>
    let t := trim chunk
    if t = [] then acc
    else
      let rec1 := parse_fields t
      if rec1 = [] then acc else acc ++ [rec1]) ([] : List Record)

/-- UTF-8 encoded size in bytes of one Unicode scalar value. -/
def charBytes (c : Char) : Nat :=
  if c.toNat < 0x80 then 1
  else if c.toNat < 0x800 then 2
  else if c.toNat < 0x10000 then 3
  else 4

/-- UTF-8 byte length of a string (Rust String::len). -/
def utf8Len (s : Str) : Nat := (s.map charBytes).sum

/-- A record-field tag as format_record writes it: name, colon, the byte
length of the value, closing bracket, value. -/
def emitTag (n v : Str) : Str :=
  '<' :: (n ++ ':' :: (natDigits (utf8Len v) ++ '>' :: v))

/-- A tag followed by its single separating space. -/
def emitField (n v : Str) : Str := emitTag n v ++ [' ']

/-- The fixed priority field order of format_record. -/
def FIELD_ORDER : List Str :=
  (["BAND", "CALL", "COMMENT", "COUNTRY", "DXCC", "FREQ",
    "APP_SKCCLOGGER_KEYTYPE", "MODE", "MY_GRIDSQUARE", "NAME",
    "OPERATOR", "QSO_DATE", "QTH", "RST_RCVD", "RST_SENT",
    "SKCC", "STATE", "STATION_CALLSIGN", "TIME_OFF", "TIME_ON",
    "TX_PWR", "RX_PWR", "CONTEST_ID", "GRIDSQUARE", "NOTES",
    "DISTANCE", "PROPAGATION_MODE"] : List String).map (fun s => s.data)

/-- format_record: the priority fields first (dict lookup by the exact
uppercase priority name), then the remaining fields in insertion order whose
uppercased key is not in the priority list, each field skipped when its
value is empty, then the end-of-record sentinel. -/
def format_record (record : Record) : Str :=
  let out1 := FIELD_ORDER.foldl (fun out f =>
    match getItem record f with
    | some v => if v ≠ [] then out ++ emitField f v else out
    | none => out) []
  let out2 := record.foldl (fun out kv =>
    if toUp kv.1 ∉ FIELD_ORDER ∧ kv.2 ≠ [] then
      out ++ emitField (toUp kv.1) kv.2
    else out) out1
  out2 ++ "<EOR>".data

/-- export_adi: fixed preamble with program id and version tags, the ADIF
version tag, optional custom header fields, the end-of-header sentinel and
one newline-terminated formatted record per input record. -/
def export_adi (records : List Record) (header : Option Record)
    (program_id program_version : Str) : Str :=
  "ADIF Export from ".data ++ program_id ++ ['\n']
  ++ "<PROGRAMID:".data ++ natDigits (utf8Len program_id) ++ ['>']
  ++ program_id ++ ['\n']
  ++ "<PROGRAMVERSION:".data ++ natDigits (utf8Len program_version) ++ ['>']
  ++ program_version ++ ['\n']
  ++ "<ADIF_VER:5>3.1.5".data ++ ['\n']
  ++ (match header with
      | some h => h.foldl (fun out kv =>
          out ++ '<' :: (toUp kv.1 ++ ':' :: (natDigits (utf8Len kv.2)
            ++ '>' :: (kv.2 ++ ['\n'])))) []
      | none => [])
  ++ "<EOH>".data ++ ['\n', '\n']
  ++ records.foldl (fun out r => out ++ format_record r ++ ['\n']) []

/-- The priority-pass fields as the amended claim describes them: for each
priority name in list order, the record value found under exactly that key,
kept when non-empty. -/
def priPairs (r : Record) : List (Str × Str) :=
  FIELD_ORDER.filterMap (fun f =>
    match getItem r f with
    | some v => if v = [] then none else some (f, v)
    | none => none)

/-- The remaining-pass fields: every record pair in insertion order whose
uppercased key is not in the priority list and whose value is non-empty,
with the key uppercased. -/
def remPairs (r : Record) : List (Str × Str) :=
  r.filterMap (fun kv =>
    if toUp kv.1 ∉ FIELD_ORDER ∧ kv.2 ≠ [] then some (toUp kv.1, kv.2)
    else none)

/-- Concatenation of the space-terminated tags of a pair list. -/
def concatTags (ps : List (Str × Str)) : Str :=
  ps.foldr (fun p acc => emitField p.1 p.2 ++ acc) []

/-- The tags of a pair list joined by single spaces, with no trailing
space: the shape of an exported record body after trimming. -/
def joinTags : List (Str × Str) → Str
  | [] => []
  | [p] => emitTag p.1 p.2
  | p :: q :: ps => emitField p.1 p.2 ++ joinTags (q :: ps)

/-- The constant header text that export_adi writes before the
end-of-header sentinel for the default program id and version. -/
def hdrC : Str :=
  ("ADIF Export from W4GNS-Logger\n<PROGRAMID:12>W4GNS-Logger\n" ++
   "<PROGRAMVERSION:3>1.0\n<ADIF_VER:5>3.1.5\n").data

/-- Well-formedness of an emitted (name, value) pair under which the
exported tag scans back to the same pair: non-empty name without the tag
meta-characters, non-empty already-trimmed value without an opening
bracket, byte length equal to character count, below the usize range. -/
def wfPair (p : Str × Str) : Prop :=
  p.1 ≠ [] ∧ (∀ c ∈ p.1, c ≠ ':' ∧ c ≠ '>' ∧ c ≠ '<') ∧
  p.2 ≠ [] ∧ trim p.2 = p.2 ∧ (∀ c ∈ p.2, c ≠ '<') ∧
  utf8Len p.2 = p.2.length ∧ p.2.length < 2 ^ 64

/-! ## Theorems: grid length check and decoded-value formula -/

theorem charDigit_some {c : Char} {d : Nat} (h : charDigit c = some d) :
    c.isDigit = true ∧ d = c.toNat - 48 := by
  unfold charDigit at h
  by_cases hc : c.isDigit
  · simp [hc] at h
    exact ⟨hc, h.symm⟩
  · simp [hc] at h

theorem digQ_bounds {c : Char} (h : c.isDigit = true) :
    0 ≤ digQ c ∧ digQ c ≤ 9 := by
  have h48 : 48 ≤ c.toNat ∧ c.toNat ≤ 57 := by
    unfold Char.isDigit at h
    constructor
    · have := of_decide_eq_true (Bool.and_elim_left h)
      exact_mod_cast this
    · have := of_decide_eq_true (Bool.and_elim_right h)
      exact_mod_cast this
  unfold digQ
  constructor
  · positivity
  · have : c.toNat - 48 ≤ 9 := by omega
    exact_mod_cast this

theorem letterVal_lb {c : Char} (h : 65 ≤ c.toNat) : 0 ≤ letterVal c := by
  unfold letterVal
  have : (65 : ℚ) ≤ (c.toNat : ℚ) := by exact_mod_cast h
  linarith

theorem letterVal_ub {c : Char} {b : Nat} (h : c.toNat ≤ b) :
    letterVal c ≤ (b : ℚ) - 65 := by
  unfold letterVal
  have : (c.toNat : ℚ) ≤ (b : ℚ) := by exact_mod_cast h
  linarith

theorem letterVal_ub17 {c : Char} (h : c.toNat ≤ 82) : letterVal c ≤ 17 := by
  have := letterVal_ub h
  norm_num at this
  exact this

theorem letterVal_ub23 {c : Char} (h : c.toNat ≤ 88) : letterVal c ≤ 23 := by
  have := letterVal_ub h
  norm_num at this
  exact this

theorem extendDecode_ok (lat0 lon0 : ℚ) (rest : Str) (lat lon : ℚ)
    (h : extendDecode lat0 lon0 rest = .ok (lat, lon)) :
    lat = lat0 + (if 2 ≤ rest.length then letterVal (rest.getD 1 'A') * (1/24) else 0)
      + (if 4 ≤ rest.length then digQ (rest.getD 3 'A') * (1/240) else 0)
      + (if 6 ≤ rest.length then letterVal (rest.getD 5 'A') * (1/5760) else 0) + 1/2
    ∧ lon = lon0 + (if 2 ≤ rest.length then letterVal (rest.getD 0 'A') * (2/24) else 0)
      + (if 4 ≤ rest.length then digQ (rest.getD 2 'A') * (2/240) else 0)
      + (if 6 ≤ rest.length then letterVal (rest.getD 4 'A') * (2/5760) else 0) + 1
    ∧ (4 ≤ rest.length →
        (rest.getD 2 'A').isDigit = true ∧ (rest.getD 3 'A').isDigit = true) := by
  rcases rest with _ | ⟨c4, _ | ⟨c5, rest2⟩⟩
  · simp only [extendDecode] at h
    rw [Except.ok.injEq, Prod.mk.injEq] at h
    refine ⟨?_, ?_, ?_⟩ <;> simp [← h.1, ← h.2]
  · simp only [extendDecode] at h
    rw [Except.ok.injEq, Prod.mk.injEq] at h
    refine ⟨?_, ?_, ?_⟩ <;> simp [← h.1, ← h.2]
  · rcases rest2 with _ | ⟨c6, _ | ⟨c7, rest3⟩⟩
    · simp only [extendDecode] at h
      rw [Except.ok.injEq, Prod.mk.injEq] at h
      refine ⟨?_, ?_, ?_⟩ <;> simp [← h.1, ← h.2, List.getD]
    · simp only [extendDecode] at h
      rw [Except.ok.injEq, Prod.mk.injEq] at h
      refine ⟨?_, ?_, ?_⟩ <;> simp [← h.1, ← h.2, List.getD]
    · rcases hd6 : charDigit c6 with _ | d6
      · simp [extendDecode, hd6] at h
      rcases hd7 : charDigit c7 with _ | d7
      · simp [extendDecode, hd6, hd7] at h
      have h6 := charDigit_some hd6
      have h7 := charDigit_some hd7
      have hq6 : (d6 : ℚ) = digQ c6 := by rw [h6.2]; rfl
      have hq7 : (d7 : ℚ) = digQ c7 := by rw [h7.2]; rfl
      rcases rest3 with _ | ⟨c8, _ | ⟨c9, t⟩⟩
      · simp only [extendDecode, hd6, hd7] at h
        rw [Except.ok.injEq, Prod.mk.injEq] at h
        refine ⟨?_, ?_, ?_⟩ <;>
          simp [← h.1, ← h.2, List.getD, h6.1, h7.1, hq6, hq7]
      · simp only [extendDecode, hd6, hd7] at h
        rw [Except.ok.injEq, Prod.mk.injEq] at h
        refine ⟨?_, ?_, ?_⟩ <;>
          simp [← h.1, ← h.2, List.getD, h6.1, h7.1, hq6, hq7]
      · simp only [extendDecode, hd6, hd7] at h
        rw [Except.ok.injEq, Prod.mk.injEq] at h
        refine ⟨?_, ?_, ?_⟩ <;>
          simp [← h.1, ← h.2, List.getD, h6.1, h7.1, hq6, hq7]

theorem gridDecodeU_ok (u : Str) (lat lon : ℚ)
    (h : gridDecodeU u = .ok (lat, lon)) :
    lat = latFormulaU u ∧ lon = lonFormulaU u ∧
    (u.getD 2 'A').isDigit = true ∧ (u.getD 3 'A').isDigit = true ∧
    (8 ≤ u.length →
      (u.getD 6 'A').isDigit = true ∧ (u.getD 7 'A').isDigit = true) ∧
    4 ≤ u.length ∧ u.length ≤ 10 := by
  unfold gridDecodeU at h
  by_cases hg : u.length < 4 ∨ 10 < u.length
  · simp [hg] at h
  rw [if_neg hg] at h
  push_neg at hg
  rcases u with _ | ⟨c0, _ | ⟨c1, _ | ⟨c2, _ | ⟨c3, rest⟩⟩⟩⟩ <;>
    simp only [List.length_nil, List.length_cons] at hg
  · omega
  · omega
  · omega
  · omega
  replace h : (match charDigit c2 with
    | none => Except.error GridErr.invalidGridDigit
    | some d2 =>
      match charDigit c3 with
      | none => Except.error GridErr.invalidGridDigit
      | some d3 =>
        extendDecode (-90 + letterVal c1 * 10 + (d3 : ℚ))
          (-180 + letterVal c0 * 20 + (d2 : ℚ) * 2) rest) = Except.ok (lat, lon) := h
  rcases hd2 : charDigit c2 with _ | d2
  · rw [hd2] at h; simp at h
  rcases hd3 : charDigit c3 with _ | d3
  · rw [hd2, hd3] at h; simp at h
  rw [hd2, hd3] at h
  have h2 := charDigit_some hd2
  have h3 := charDigit_some hd3
  have hq2 : (d2 : ℚ) = digQ c2 := by rw [h2.2]; rfl
  have hq3 : (d3 : ℚ) = digQ c3 := by rw [h3.2]; rfl
  have hx := extendDecode_ok _ _ rest lat lon h
  have hlen : (c0 :: c1 :: c2 :: c3 :: rest).length = rest.length + 4 := by
    simp
  have i6 : (6 ≤ (c0 :: c1 :: c2 :: c3 :: rest).length) ↔ (2 ≤ rest.length) := by
    rw [hlen]; omega
  have i8 : (8 ≤ (c0 :: c1 :: c2 :: c3 :: rest).length) ↔ (4 ≤ rest.length) := by
    rw [hlen]; omega
  have i10 : (10 ≤ (c0 :: c1 :: c2 :: c3 :: rest).length) ↔ (6 ≤ rest.length) := by
    rw [hlen]; omega
  refine ⟨?_, ?_, ?_, ?_, ?_, ?_, ?_⟩
  · rw [hx.1]
    unfold latFormulaU
    simp only [i6, i8, i10, List.getD_cons_succ, List.getD_cons_zero]
    rw [hq3]
  · rw [hx.2.1]
    unfold lonFormulaU
    simp only [i6, i8, i10, List.getD_cons_succ, List.getD_cons_zero]
    rw [hq2]
  · simpa using h2.1
  · simpa using h3.1
  · intro h8
    have := hx.2.2 (by omega)
    simpa using this
  · simp only [List.length_cons]; omega
  · simp only [List.length_cons]; omega

theorem scaled_bound {x c b : ℚ} (h0 : 0 ≤ x) (hb : x ≤ b) (hc : 0 ≤ c) :
    0 ≤ x * c ∧ x * c ≤ b * c :=
  ⟨mul_nonneg h0 hc, mul_le_mul_of_nonneg_right hb hc⟩

theorem dec_AA00 : grid_to_latlon "AA00".data = Except.ok (-179/2, -179) := by
  have hu : toUp "AA00".data = "AA00".data := by decide
  have hA : 'A'.toNat = 65 := by decide
  have h0 : charDigit '0' = some 0 := by decide
  unfold grid_to_latlon
  rw [hu]
  simp [gridDecodeU, extendDecode, h0, letterVal, hA]
  norm_num

theorem dec_AA00AA : grid_to_latlon "AA00AA".data = Except.ok (-179/2, -179) := by
  have hu : toUp "AA00AA".data = "AA00AA".data := by decide
  have hA : 'A'.toNat = 65 := by decide
  have h0 : charDigit '0' = some 0 := by decide
  unfold grid_to_latlon
  rw [hu]
  simp [gridDecodeU, extendDecode, h0, letterVal, hA]
  norm_num

theorem dec_RR99XX : grid_to_latlon "RR99XX".data = Except.ok (2171/24, 2171/12) := by
  have hu : toUp "RR99XX".data = "RR99XX".data := by decide
  have hR : 'R'.toNat = 82 := by decide
  have hX : 'X'.toNat = 88 := by decide
  have h9 : charDigit '9' = some 9 := by decide
  unfold grid_to_latlon
  rw [hu]
  simp [gridDecodeU, extendDecode, h9, letterVal, hR, hX]
  norm_num

/-- Claim C1: the spec says grid decoding fails with InvalidGridLength exactly
when the length is not in 4, 6, 8, 10, in particular that the odd lengths
5, 7 and 9 are rejected before decoding. The code only rejects lengths below
4 or above 10 (chars.len() < 4 || chars.len() > 10), contradicting its own
error message, which promises that the grid must be 4, 6, 8 or 10 characters:
the length-5 input AA000 is accepted and decoded as if it were AA00. -/
theorem c1_odd_length_accepted :
    grid_to_latlon "AA000".data = Except.ok (-179/2, -179) := by
  have hu : toUp "AA000".data = "AA000".data := by decide
  have hA : 'A'.toNat = 65 := by decide
  have h0 : charDigit '0' = some 0 := by decide
  unfold grid_to_latlon
  rw [hu]
  simp [gridDecodeU, extendDecode, h0, letterVal, hA]
  norm_num

/-- Claim C2 counterexample: on the 6-character input AA00AA the decoder does
not add half of the finest resolution present (1/24 degree longitude and
1/48 degree latitude, as the claim requires for 6-character inputs); it
returns the corner plus a constant (1, 1/2), so the decoded point differs
from the claimed cell center (-90 + 1/48, -180 + 1/24). -/
theorem c2_center_counterexample :
    grid_to_latlon "AA00AA".data = Except.ok (-179/2, -179) ∧
    ¬((-179/2 : ℚ) = -90 + 1/48 ∧ (-179 : ℚ) = -180 + 1/24) :=
  ⟨dec_AA00AA, by norm_num⟩

/-- Claim C2 (amended): for every grid string accepted by the decoder, the
returned coordinate is the sum of all present position-pair offsets starting
from (-180 lon, -90 lat), plus a constant 1 degree of longitude and 0.5
degree of latitude (half of the 4-character cell size) regardless of the
input length, so the result is the geometric center of the implied cell only
for 4-character inputs. -/
theorem c2_sum_of_offsets (grid : Str) (lat lon : ℚ)
    (h : grid_to_latlon grid = .ok (lat, lon)) :
    lat = latFormulaU (toUp grid) ∧ lon = lonFormulaU (toUp grid) := by
  unfold grid_to_latlon at h
  have hm := gridDecodeU_ok (toUp grid) lat lon h
  exact ⟨hm.1, hm.2.1⟩

/-- Witness for c2_sum_of_offsets at the concrete input AA00. -/
theorem c2_sum_of_offsets_witness :
    grid_to_latlon "AA00".data = Except.ok (-179/2, -179) ∧
    ((-179/2 : ℚ) = latFormulaU (toUp "AA00".data) ∧
     (-179 : ℚ) = lonFormulaU (toUp "AA00".data)) :=
  ⟨dec_AA00, c2_sum_of_offsets "AA00".data (-179/2) (-179) dec_AA00⟩

/-- Claim C4 counterexample: the valid Maidenhead input RR99XX is accepted by
the decoder but its decoded latitude 2171/24 (about 90.458) exceeds 90, so
the decoded coordinate does not lie in the claimed ranges. -/
theorem c4_range_counterexample :
    grid_to_latlon "RR99XX".data = Except.ok (2171/24, 2171/12) ∧
    ¬((2171/24 : ℚ) ≤ 90) :=
  ⟨dec_RR99XX, by norm_num⟩

/-- Claim C4 (amended): for every accepted grid string whose letter positions
lie in the standard Maidenhead ranges (field pair A to R, subsquare and
super-extended pairs A to X), the decoded latitude lies in
[-89.5, 90.5] and the decoded longitude in [-179, 181]; the claimed ranges
[-90, 90] and [-180, 180] do not hold because the center shift is a constant
(1, 0.5) even at the finest resolution. -/
theorem c4_decoded_ranges (grid : Str) (lat lon : ℚ)
    (h : grid_to_latlon grid = .ok (lat, lon))
    (hf : ∀ i ∈ ([0, 1] : List ℕ),
      65 ≤ ((toUp grid).getD i 'A').toNat ∧ ((toUp grid).getD i 'A').toNat ≤ 82)
    (hx : ∀ i ∈ ([4, 5, 8, 9] : List ℕ),
      65 ≤ ((toUp grid).getD i 'A').toNat ∧ ((toUp grid).getD i 'A').toNat ≤ 88) :
    -(179/2) ≤ lat ∧ lat ≤ 181/2 ∧ -179 ≤ lon ∧ lon ≤ 181 := by
  unfold grid_to_latlon at h
  obtain ⟨hlat, hlon, hd2, hd3, hd67, -, -⟩ := gridDecodeU_ok (toUp grid) lat lon h
  have h0 := hf 0 (by simp)
  have h1 := hf 1 (by simp)
  have h4 := hx 4 (by simp)
  have h5 := hx 5 (by simp)
  have h8 := hx 8 (by simp)
  have h9 := hx 9 (by simp)
  have b0 := scaled_bound (letterVal_lb h0.1) (letterVal_ub17 h0.2) (by norm_num : (0:ℚ) ≤ 20)
  have b1 := scaled_bound (letterVal_lb h1.1) (letterVal_ub17 h1.2) (by norm_num : (0:ℚ) ≤ 10)
  have q2 := digQ_bounds hd2
  have q3 := digQ_bounds hd3
  have t6l : 0 ≤ (if 6 ≤ (toUp grid).length then letterVal ((toUp grid).getD 5 'A') * (1/24) else 0) ∧
      (if 6 ≤ (toUp grid).length then letterVal ((toUp grid).getD 5 'A') * (1/24) else 0) ≤ 23 * (1/24) := by
    split_ifs
    · exact scaled_bound (letterVal_lb h5.1) (letterVal_ub23 h5.2) (by norm_num)
    · norm_num
  have t6o : 0 ≤ (if 6 ≤ (toUp grid).length then letterVal ((toUp grid).getD 4 'A') * (2/24) else 0) ∧
      (if 6 ≤ (toUp grid).length then letterVal ((toUp grid).getD 4 'A') * (2/24) else 0) ≤ 23 * (2/24) := by
    split_ifs
    · exact scaled_bound (letterVal_lb h4.1) (letterVal_ub23 h4.2) (by norm_num)
    · norm_num
  have t8l : 0 ≤ (if 8 ≤ (toUp grid).length then digQ ((toUp grid).getD 7 'A') * (1/240) else 0) ∧
      (if 8 ≤ (toUp grid).length then digQ ((toUp grid).getD 7 'A') * (1/240) else 0) ≤ 9 * (1/240) := by
    split_ifs with hc
    · exact scaled_bound (digQ_bounds (hd67 hc).2).1 (digQ_bounds (hd67 hc).2).2 (by norm_num)
    · norm_num
  have t8o : 0 ≤ (if 8 ≤ (toUp grid).length then digQ ((toUp grid).getD 6 'A') * (2/240) else 0) ∧
      (if 8 ≤ (toUp grid).length then digQ ((toUp grid).getD 6 'A') * (2/240) else 0) ≤ 9 * (2/240) := by
    split_ifs with hc
    · exact scaled_bound (digQ_bounds (hd67 hc).1).1 (digQ_bounds (hd67 hc).1).2 (by norm_num)
    · norm_num
  have t10l : 0 ≤ (if 10 ≤ (toUp grid).length then letterVal ((toUp grid).getD 9 'A') * (1/5760) else 0) ∧
      (if 10 ≤ (toUp grid).length then letterVal ((toUp grid).getD 9 'A') * (1/5760) else 0) ≤ 23 * (1/5760) := by
    split_ifs
    · exact scaled_bound (letterVal_lb h9.1) (letterVal_ub23 h9.2) (by norm_num)
    · norm_num
  have t10o : 0 ≤ (if 10 ≤ (toUp grid).length then letterVal ((toUp grid).getD 8 'A') * (2/5760) else 0) ∧
      (if 10 ≤ (toUp grid).length then letterVal ((toUp grid).getD 8 'A') * (2/5760) else 0) ≤ 23 * (2/5760) := by
    split_ifs
    · exact scaled_bound (letterVal_lb h8.1) (letterVal_ub23 h8.2) (by norm_num)
    · norm_num
  rw [hlat, hlon]
  unfold latFormulaU lonFormulaU
  refine ⟨?_, ?_, ?_, ?_⟩
  · linarith [b1.1, q3.1, t6l.1, t8l.1, t10l.1]
  · linarith [b1.2, q3.2, t6l.2, t8l.2, t10l.2]
  · linarith [b0.1, q2.1, t6o.1, t8o.1, t10o.1]
  · linarith [b0.2, q2.2, t6o.2, t8o.2, t10o.2]

/-- Witness for c4_decoded_ranges at the concrete input AA00. -/
theorem c4_decoded_ranges_witness :
    grid_to_latlon "AA00".data = Except.ok (-179/2, -179) ∧
    (-(179/2 : ℚ) ≤ -179/2 ∧ (-179/2 : ℚ) ≤ 181/2 ∧
     (-179 : ℚ) ≤ -179 ∧ (-179 : ℚ) ≤ 181) :=
  ⟨dec_AA00, c4_decoded_ranges "AA00".data (-179/2) (-179) dec_AA00
    (by decide) (by decide)⟩

/-! ## Theorems: geodesic calculator -/

theorem norm360 (b : ℝ) (hub : b ≤ 180) (hlb : -180 < b) :
    0 ≤ (if b < 0 then b + 360 else b) ∧ (if b < 0 then b + 360 else b) < 360 := by
  split_ifs with hneg
  · constructor <;> linarith
  · push_neg at hneg
    constructor <;> linarith

theorem bearingDeg_range (c1 c2 : ℚ × ℚ) :
    0 ≤ bearingDeg c1 c2 ∧ bearingDeg c1 c2 < 360 := by
  have hpi := Real.pi_pos
  have hq : (0:ℝ) < 180 / Real.pi := by positivity
  have heq : Real.pi * (180 / Real.pi) = 180 := by
    field_simp
  simp only [bearingDeg, atan2R]
  refine norm360 _ ?_ ?_
  · exact le_trans
      (mul_le_mul_of_nonneg_right (Complex.arg_le_pi _) (le_of_lt hq))
      (le_of_eq heq)
  · have heq2 : -Real.pi * (180 / Real.pi) = -180 := by
      field_simp
      ring
    rw [← heq2]
    exact mul_lt_mul_of_pos_right (Complex.neg_pi_lt_arg _) hq

/-- Claim C9: for every pair of grid strings accepted by the decoder, the
bearing returned by calculate_bearing lies in the half-open range
[0, 360): the atan2-based raw bearing lies in (-180, 180], and adding 360
to a negative raw value lands in (180, 360). -/
theorem c9_bearing_in_range (g1 g2 : Str) (b : ℝ)
    (h : calculate_bearing g1 g2 = .ok b) : 0 ≤ b ∧ b < 360 := by
  unfold calculate_bearing at h
  rcases hc1 : grid_to_latlon g1 with e | c1 <;> rw [hc1] at h
  · simp at h
  rcases hc2 : grid_to_latlon g2 with e | c2 <;> rw [hc2] at h
  · simp at h
  rw [Except.ok.injEq] at h
  rw [← h]
  exact bearingDeg_range c1 c2

theorem dec_AB12 : grid_to_latlon "AB12".data = Except.ok (-155/2, -177) := by
  have hu : toUp "AB12".data = "AB12".data := by decide
  have hA : 'A'.toNat = 65 := by decide
  have hB : 'B'.toNat = 66 := by decide
  have h1 : charDigit '1' = some 1 := by decide
  have h2 : charDigit '2' = some 2 := by decide
  unfold grid_to_latlon
  rw [hu]
  simp [gridDecodeU, extendDecode, h1, h2, letterVal, hA, hB]
  norm_num

/-- Witness for c9_bearing_in_range at the concrete grids AA00 and AB12. -/
theorem c9_bearing_in_range_witness :
    ∃ b, calculate_bearing "AA00".data "AB12".data = Except.ok b ∧
      0 ≤ b ∧ b < 360 := by
  have hb : calculate_bearing "AA00".data "AB12".data
      = .ok (bearingDeg (-179/2, -179) (-155/2, -177)) := by
    unfold calculate_bearing
    rw [dec_AA00, dec_AB12]
  exact ⟨_, hb, c9_bearing_in_range "AA00".data "AB12".data _ hb⟩

theorem batch_foldl_eq_map (home : Str) (grids : List Str)
    (acc : List (Option ℝ)) :
    grids.foldl (fun results g =>
      results ++ [match calculate_distance home g with
        | .ok d => some d
        | .error _ => none]) acc
    = acc ++ grids.map (fun g => match calculate_distance home g with
        | .ok d => some d
        | .error _ => none) := by
  induction grids generalizing acc with
  | nil => simp
  | cons g gs ih =>
    rw [List.foldl_cons, ih, List.map_cons]
    simp

/-- Claim C8: the batch distance operation returns one entry per input grid,
in the same order: entry i is Some of the distance from the home grid to
grid i when that distance computation succeeds, and None when it fails, each
entry depending only on its own grid. -/
theorem c8_batch_distances (home : Str) (grids : List Str) :
    (batch_calculate_distances home grids).length = grids.length ∧
    ∀ i : ℕ, (batch_calculate_distances home grids)[i]? =
      (grids[i]?).map (fun g => match calculate_distance home g with
        | .ok d => some d
        | .error _ => none) := by
  unfold batch_calculate_distances
  rw [batch_foldl_eq_map home grids []]
  constructor
  · simp
  · intro i
    simp [List.getElem?_map]

/-! ## Theorems: ADIF codec -/

theorem readName_len (l : Str) : (readName l).2.length ≤ l.length := by
  induction l with
  | nil => simp [readName]
  | cons c cs ih =>
    unfold readName
    split_ifs <;> simp <;> omega

theorem readLen_len (l : Str) : (readLen l).2.length ≤ l.length := by
  induction l with
  | nil => simp [readLen]
  | cons c cs ih =>
    unfold readLen
    split_ifs <;> simp <;> omega

theorem pfStep_eq_pfGo : ∀ (f : Nat) (text : Str), text.length ≤ f →
    pfStep f text = some (pfGo f text) := by
  intro f
  induction f with
  | zero =>
    intro text h
    cases text with
    | nil => rfl
    | cons c cs => simp at h
  | succ f ih =>
    intro text h
    cases text with
    | nil => rfl
    | cons c cs =>
      simp only [List.length_cons] at h
      unfold pfStep pfGo
      by_cases hc : c = '<'
      · simp only [hc, if_pos rfl]
        by_cases hn : (readName cs).1 = []
        · rw [if_pos hn, if_pos hn]
          exact ih _ (le_trans (readName_len cs) (by omega))
        · rw [if_neg hn, if_neg hn]
          have h2 : (readLen (readName cs).2).2.length ≤ f :=
            le_trans (readLen_len _) (le_trans (readName_len cs) (by omega))
          cases hp : parseUsize (readLen (readName cs).2).1 with
          | none => exact ih _ h2
          | some L =>
            have h3 : (List.drop L (readLen (readName cs).2).2).length ≤ f := by
              rw [List.length_drop]; omega
            simp [ih _ h3]
      · rw [if_neg hc, if_neg hc]
        exact ih _ (by omega)

/-- Claim C7: the field tokenizer terminates on every input, one outer
iteration per unit of fuel, fuel equal to the input length always being
enough (every iteration consumes at least one character), and it never
signals an error: the fuel-observing scanner returns some result on every
input. On the unterminated input CALL:5W4GNS the scan yields no fields and
the parsed record is empty. -/
theorem c7_tokenizer_never_fails :
    (∀ text : Str, pfStep text.length text = some (parseFieldsAux text)) ∧
    parse_fields "<CALL:5W4GNS".data = [] := by
  constructor
  · intro text
    exact pfStep_eq_pfGo text.length text (le_refl _)
  · decide

/-- Claim C10: when the input contains no end-of-header sentinel, parse_adi
returns an empty header and treats the whole input as the records section,
handling it exactly as the records-only entry point batch_parse_records
does. -/
theorem c10_missing_header (content : Str)
    (h : hasSub content "<EOH>".data = false) :
    parse_adi content = (batch_parse_records content, []) := by
  have hf : findSub "<EOH>".data content = none := by
    unfold hasSub at h
    cases hx : findSub "<EOH>".data content with
    | none => rfl
    | some i => rw [hx] at h; simp at h
  unfold parse_adi batch_parse_records
  rw [hf]
  rfl

/-- Witness for c10_missing_header on a concrete headerless input. -/
theorem c10_missing_header_witness :
    hasSub "<CALL:5>W4GNS<EOR>".data "<EOH>".data = false ∧
    parse_adi "<CALL:5>W4GNS<EOR>".data
      = (batch_parse_records "<CALL:5>W4GNS<EOR>".data, []) :=
  ⟨by decide, c10_missing_header "<CALL:5>W4GNS<EOR>".data (by decide)⟩

theorem concatTags_cons (p : Str × Str) (ps : List (Str × Str)) :
    concatTags (p :: ps) = emitField p.1 p.2 ++ concatTags ps := rfl

theorem concatTags_append (a b : List (Str × Str)) :
    concatTags (a ++ b) = concatTags a ++ concatTags b := by
  induction a with
  | nil => simp [concatTags]
  | cons p ps ih => simp [concatTags_cons, ih]

theorem foldl_pri (r : Record) (l : List Str) (acc : Str) :
    l.foldl (fun out f =>
      match getItem r f with
      | some v => if v ≠ [] then out ++ emitField f v else out
      | none => out) acc
    = acc ++ concatTags (l.filterMap (fun f =>
        match getItem r f with
        | some v => if v = [] then none else some (f, v)
        | none => none)) := by
  induction l generalizing acc with
  | nil => simp [concatTags]
  | cons f fs ih =>
    rw [List.foldl_cons]
    cases hg : getItem r f with
    | none =>
      have hfm : (fun (f : Str) =>
          match getItem r f with
          | some v => if v = [] then none else some (f, v)
          | none => none) f = none := by simp [hg]
      rw [@List.filterMap_cons_none Str (Str × Str) (fun (f : Str) =>
        match getItem r f with
        | some v => if v = [] then none else some (f, v)
        | none => none) f fs hfm]
      exact ih acc
    | some v =>
      by_cases hv : v = []
      · have hfm : (fun (f : Str) =>
            match getItem r f with
            | some v => if v = [] then none else some (f, v)
            | none => none) f = none := by simp [hg, hv]
        rw [@List.filterMap_cons_none Str (Str × Str) (fun (f : Str) =>
        match getItem r f with
        | some v => if v = [] then none else some (f, v)
        | none => none) f fs hfm]
        subst hv
        exact ih acc
      · have hfm : (fun (f : Str) =>
            match getItem r f with
            | some v => if v = [] then none else some (f, v)
            | none => none) f = some (f, v) := by simp [hg, hv]
        rw [@List.filterMap_cons_some Str (Str × Str) (fun (f : Str) =>
        match getItem r f with
        | some v => if v = [] then none else some (f, v)
        | none => none) f fs (f, v) hfm, ih, concatTags_cons]
        simp [hv, List.append_assoc]

theorem foldl_rem (r : Record) (acc : Str) :
    r.foldl (fun out kv =>
      if toUp kv.1 ∉ FIELD_ORDER ∧ kv.2 ≠ [] then
        out ++ emitField (toUp kv.1) kv.2
      else out) acc
    = acc ++ concatTags (remPairs r) := by
  unfold remPairs
  induction r generalizing acc with
  | nil => simp [concatTags]
  | cons kv rest ih =>
    rw [List.foldl_cons]
    by_cases hc : toUp kv.1 ∉ FIELD_ORDER ∧ kv.2 ≠ []
    · have hred : (if toUp kv.1 ∉ FIELD_ORDER ∧ kv.2 ≠ [] then
            acc ++ emitField (toUp kv.1) kv.2
          else acc) = acc ++ emitField (toUp kv.1) kv.2 := by
        simp only [if_pos hc]
      have hfm : (fun (kv : Str × Str) =>
          if toUp kv.1 ∉ FIELD_ORDER ∧ kv.2 ≠ [] then some (toUp kv.1, kv.2)
          else none) kv = some (toUp kv.1, kv.2) := by
        simp only [if_pos hc]
      rw [hred, @List.filterMap_cons_some (Str × Str) (Str × Str) (fun (kv : Str × Str) =>
        if toUp kv.1 ∉ FIELD_ORDER ∧ kv.2 ≠ [] then some (toUp kv.1, kv.2)
        else none) kv rest (toUp kv.1, kv.2) hfm, ih, concatTags_cons,
        List.append_assoc]
    · have hred : (if toUp kv.1 ∉ FIELD_ORDER ∧ kv.2 ≠ [] then
            acc ++ emitField (toUp kv.1) kv.2
          else acc) = acc := by
        simp only [if_neg hc]
      have hfm : (fun (kv : Str × Str) =>
          if toUp kv.1 ∉ FIELD_ORDER ∧ kv.2 ≠ [] then some (toUp kv.1, kv.2)
          else none) kv = none := by
        simp only [if_neg hc]
      rw [hred, @List.filterMap_cons_none (Str × Str) (Str × Str) (fun (kv : Str × Str) =>
        if toUp kv.1 ∉ FIELD_ORDER ∧ kv.2 ≠ [] then some (toUp kv.1, kv.2)
        else none) kv rest hfm]
      exact ih acc

theorem format_record_spec (r : Record) :
    format_record r = concatTags (priPairs r ++ remPairs r) ++ "<EOR>".data := by
  simp only [format_record]
  rw [foldl_pri, foldl_rem, concatTags_append]
  simp [List.append_assoc, priPairs]

/-- Claim C5 (amended): format_record emits the priority fields first, in
priority-list order, keeping a field only when the record holds a non-empty
value under exactly that uppercase key (the lookup is case-sensitive); it
then emits the remaining fields in insertion order, skipping empty values
and every key whose uppercased form is in the priority list, so a key that
matches a priority name only after uppercasing is emitted in neither pass;
each field is one space-terminated tag and the record ends with the
end-of-record sentinel. -/
theorem c5_field_ordering (r : Record) :
    format_record r = concatTags (priPairs r ++ remPairs r) ++ "<EOR>".data :=
  format_record_spec r

/-- Claim C5 counterexample: the record with the single pair
call (lowercase) to W4GNS has a non-empty value whose key matches the
priority name CALL case-insensitively, yet format_record emits nothing for
it: the output is exactly the record-end sentinel, not the claimed
CALL tag followed by the sentinel. -/
theorem c5_lowercase_key_dropped :
    format_record [("call".data, "W4GNS".data)] = "<EOR>".data ∧
    format_record [("call".data, "W4GNS".data)] ≠ "<CALL:5>W4GNS <EOR>".data := by
  constructor <;> decide

theorem charBytes_ascii {c : Char} (h : c.toNat ≤ 127) : charBytes c = 1 := by
  unfold charBytes
  rw [if_pos (by omega)]

theorem utf8Len_ascii {v : Str} (hv : ∀ c ∈ v, c.toNat ≤ 127) :
    utf8Len v = v.length := by
  unfold utf8Len
  induction v with
  | nil => simp
  | cons c cs ih =>
    rw [List.map_cons, List.sum_cons, charBytes_ascii (hv c (by simp)),
      List.length_cons]
    rw [ih (fun d hd => hv d (by simp [hd]))]
    omega

/-- Claim C6 (amended): the LENGTH token of an emitted field tag is the
UTF-8 byte count of the value, which coincides with the character count
exactly when the value is ASCII: for ASCII values the emitted tag carries
the character count. -/
theorem c6_length_counts_ascii (n v : Str) (hv : ∀ c ∈ v, c.toNat ≤ 127) :
    emitTag n v = '<' :: (n ++ ':' :: (natDigits v.length ++ '>' :: v)) ∧
    utf8Len v = v.length := by
  have hl := utf8Len_ascii hv
  constructor
  · unfold emitTag
    rw [hl]
  · exact hl

/-- Witness for c6_length_counts_ascii at a concrete ASCII value. -/
theorem c6_length_counts_ascii_witness :
    (∀ c ∈ "W4GNS".data, c.toNat ≤ 127) ∧
    (emitTag "CALL".data "W4GNS".data
      = '<' :: ("CALL".data ++ ':' :: (natDigits ("W4GNS".data).length
        ++ '>' :: "W4GNS".data)) ∧
     utf8Len "W4GNS".data = ("W4GNS".data).length) :=
  ⟨by decide, c6_length_counts_ascii "CALL".data "W4GNS".data (by decide)⟩

/-- Claim C6 counterexample: for the one-character non-ASCII value with the
code point 233, format_record writes the LENGTH token 2 (the UTF-8 byte
count), which differs from the character count 1 that the claim requires. -/
theorem c6_length_is_bytes :
    format_record [("X".data, "é".data)] = "<X:2>é <EOR>".data ∧
    ("é".data).length = 1 ∧ utf8Len "é".data = 2 := by
  refine ⟨by decide, by decide, by decide⟩

/-! ## Theorems: digit printing and parsing -/

theorem digitChar_toNat {k : Nat} (h : k ≤ 9) : (digitChar k).toNat = 48 + k := by
  interval_cases k <;> decide

theorem digitsGo_mem : ∀ (f n : Nat), n < f →
    ∀ c ∈ digitsGo f n, 48 ≤ c.toNat ∧ c.toNat ≤ 57 := by
  intro f
  induction f with
  | zero => intro n h; omega
  | succ f ih =>
    intro n h c hc
    unfold digitsGo at hc
    by_cases h10 : n < 10
    · rw [if_pos h10] at hc
      simp at hc
      subst hc
      rw [digitChar_toNat (by omega)]
      omega
    · rw [if_neg h10] at hc
      rw [List.mem_append] at hc
      rcases hc with hc | hc
      · exact ih (n / 10) (by omega) c hc
      · simp at hc
        subst hc
        rw [digitChar_toNat (by omega)]
        omega

theorem digitsVal_append_one (a : Str) (c : Char) :
    digitsVal (a ++ [c]) = 10 * digitsVal a + (c.toNat - 48) := by
  unfold digitsVal
  rw [List.foldl_append]
  rfl

theorem digitsGo_val : ∀ (f n : Nat), n < f → digitsVal (digitsGo f n) = n := by
  intro f
  induction f with
  | zero => intro n h; omega
  | succ f ih =>
    intro n h
    unfold digitsGo
    by_cases h10 : n < 10
    · rw [if_pos h10]
      unfold digitsVal
      rw [List.foldl_cons]
      simp [digitChar_toNat (by omega : n ≤ 9)]
    · rw [if_neg h10]
      rw [digitsVal_append_one, ih (n / 10) (by omega)]
      rw [digitChar_toNat (by omega : n % 10 ≤ 9)]
      omega

theorem digitsGo_ne_nil (f n : Nat) (h : 0 < f) : digitsGo f n ≠ [] := by
  cases f with
  | zero => omega
  | succ f =>
    unfold digitsGo
    split_ifs <;> simp

theorem natDigits_mem {n : Nat} {c : Char} (h : c ∈ natDigits n) :
    48 ≤ c.toNat ∧ c.toNat ≤ 57 :=
  digitsGo_mem (n + 1) n (by omega) c h

theorem natDigits_val (n : Nat) : digitsVal (natDigits n) = n :=
  digitsGo_val (n + 1) n (by omega)

theorem natDigits_ne_nil (n : Nat) : natDigits n ≠ [] :=
  digitsGo_ne_nil (n + 1) n (by omega)

theorem isWS_false_of_digit {c : Char} (h : 48 ≤ c.toNat ∧ c.toNat ≤ 57) :
    isWS c = false := by
  unfold isWS
  rw [decide_eq_false_iff_not]
  omega

theorem dropWhile_eq_self_of (p : Char → Bool) (l : Str)
    (h : ∀ c ∈ l, p c = false) : l.dropWhile p = l := by
  cases l with
  | nil => rfl
  | cons c cs =>
    rw [List.dropWhile_cons, if_neg]
    rw [h c (by simp)]
    simp

theorem trim_eq_self_of (l : Str) (h : ∀ c ∈ l, isWS c = false) :
    trim l = l := by
  unfold trim trimStart trimEnd
  rw [dropWhile_eq_self_of isWS l h,
    dropWhile_eq_self_of isWS l.reverse (fun c hc => h c (by
      rw [List.mem_reverse] at hc; exact hc)),
    List.reverse_reverse]

theorem parseUsize_natDigits {n : Nat} (h : n < 2 ^ 64) :
    parseUsize (natDigits n) = some n := by
  unfold parseUsize
  have hmem : ∀ c ∈ natDigits n, 48 ≤ c.toNat ∧ c.toNat ≤ 57 :=
    fun c hc => natDigits_mem hc
  rw [trim_eq_self_of _ (fun c hc => isWS_false_of_digit (hmem c hc))]
  have hplus : stripPlus (natDigits n) = natDigits n := by
    unfold stripPlus
    cases hd : natDigits n with
    | nil => rfl
    | cons c cs =>
      have hcd := hmem c (by rw [hd]; simp)
      show (if c = '+' then cs else c :: cs) = c :: cs
      rw [if_neg]
      intro hc
      subst hc
      simp at hcd
  rw [hplus, if_pos, natDigits_val]
  refine ⟨natDigits_ne_nil n, ?_, ?_⟩
  · rw [List.all_eq_true]
    intro c hc
    unfold isDigitB
    rw [decide_eq_true_iff]
    exact hmem c hc
  · rw [natDigits_val]
    exact h

/-! ## Theorems: scanner structure -/

theorem readName_exact (n : Str) (rest : Str)
    (h : ∀ c ∈ n, c ≠ ':' ∧ c ≠ '>' ∧ c ≠ '<') :
    readName (n ++ ':' :: rest) = (n, rest) := by
  induction n with
  | nil =>
    simp [readName]
  | cons c cs ih =>
    have hc := h c (by simp)
    rw [List.cons_append]
    unfold readName
    rw [if_neg hc.1, if_neg (by push_neg; exact ⟨hc.2.1, hc.2.2⟩)]
    rw [ih (fun d hd => h d (by simp [hd]))]

theorem readLen_exact (d : Str) (rest : Str)
    (h : ∀ c ∈ d, c ≠ '>' ∧ c ≠ '<') :
    readLen (d ++ '>' :: rest) = (d, rest) := by
  induction d with
  | nil =>
    simp [readLen]
  | cons c cs ih =>
    have hc := h c (by simp)
    rw [List.cons_append]
    unfold readLen
    rw [if_neg hc.1, if_neg hc.2]
    rw [ih (fun e he => h e (by simp [he]))]

theorem pfGo_irrel : ∀ (f g : Nat) (l : Str), l.length ≤ f → l.length ≤ g →
    pfGo f l = pfGo g l := by
  intro f
  induction f with
  | zero =>
    intro g l hf hg
    cases l with
    | nil => cases g <;> rfl
    | cons c cs => simp at hf
  | succ f ih =>
    intro g l hf hg
    cases l with
    | nil => cases g <;> rfl
    | cons c cs =>
      cases g with
      | zero => simp at hg
      | succ g =>
        simp only [List.length_cons] at hf hg
        unfold pfGo
        by_cases hc : c = '<'
        · rw [if_pos hc, if_pos hc]
          by_cases hn : (readName cs).1 = []
          · rw [if_pos hn, if_pos hn]
            exact ih g _ (le_trans (readName_len cs) (by omega))
              (le_trans (readName_len cs) (by omega))
          · rw [if_neg hn, if_neg hn]
            have hll : (readLen (readName cs).2).2.length ≤ cs.length :=
              le_trans (readLen_len _) (readName_len cs)
            cases hp : parseUsize (readLen (readName cs).2).1 with
            | none =>
              simp only [hp]
              exact ih g (readLen (readName cs).2).2 (by omega) (by omega)
            | some L =>
              simp only [hp]
              rw [ih g (List.drop L (readLen (readName cs).2).2)
                (by rw [List.length_drop]; omega)
                (by rw [List.length_drop]; omega)]
        · rw [if_neg hc, if_neg hc]
          exact ih g cs (by omega) (by omega)

theorem pfAux_skip {c : Char} (hc : c ≠ '<') (cs : Str) :
    parseFieldsAux (c :: cs) = parseFieldsAux cs := by
  unfold parseFieldsAux
  show pfGo (cs.length + 1) (c :: cs) = pfGo cs.length cs
  conv_lhs => unfold pfGo
  rw [if_neg hc]

theorem pfAux_skip_all (pre : Str) (hp : ∀ c ∈ pre, c ≠ '<') (s : Str) :
    parseFieldsAux (pre ++ s) = parseFieldsAux s := by
  induction pre with
  | nil => simp
  | cons c cs ih =>
    rw [List.cons_append, pfAux_skip (hp c (by simp))]
    exact ih (fun d hd => hp d (by simp [hd]))

theorem pfAux_tag (n v rest : Str)
    (hn : n ≠ []) (hnc : ∀ c ∈ n, c ≠ ':' ∧ c ≠ '>' ∧ c ≠ '<')
    (hv64 : v.length < 2 ^ 64) :
    parseFieldsAux ('<' :: (n ++ ':' :: (natDigits v.length ++ '>' :: (v ++ rest))))
      = (toUp n, trim v) :: parseFieldsAux rest := by
  have hrn : readName (n ++ ':' :: (natDigits v.length ++ '>' :: (v ++ rest)))
      = (n, natDigits v.length ++ '>' :: (v ++ rest)) :=
    readName_exact n _ hnc
  have hrl : readLen (natDigits v.length ++ '>' :: (v ++ rest))
      = (natDigits v.length, v ++ rest) := by
    refine readLen_exact _ _ (fun c hc => ?_)
    have hb := natDigits_mem hc
    constructor
    · intro he; subst he; simp at hb
    · intro he; subst he; simp at hb
  have htake : (v ++ rest).take v.length = v := List.take_left v rest
  have hdrop : (v ++ rest).drop v.length = rest := List.drop_left v rest
  unfold parseFieldsAux
  show pfGo ((n ++ ':' :: (natDigits v.length ++ '>' :: (v ++ rest))).length + 1)
      ('<' :: (n ++ ':' :: (natDigits v.length ++ '>' :: (v ++ rest))))
    = (toUp n, trim v) :: pfGo rest.length rest
  conv_lhs => unfold pfGo
  rw [if_pos rfl]
  simp only [hrn, if_neg hn, hrl, parseUsize_natDigits hv64, htake, hdrop]
  congr 1
  refine pfGo_irrel _ _ rest ?_ (le_refl _)
  simp only [List.length_append, List.length_cons]
  omega

theorem pfAux_joinTags : ∀ (ps : List (Str × Str)), (∀ p ∈ ps, wfPair p) →
    parseFieldsAux (joinTags ps) = ps.map (fun p => (toUp p.1, p.2)) := by
  intro ps
  induction ps with
  | nil => intro _; rfl
  | cons p ps ih =>
    intro hw
    obtain ⟨hn, hnc, hvne, hvtrim, hvlt, hulen, hv64⟩ := hw p (by simp)
    cases ps with
    | nil =>
      show parseFieldsAux (emitTag p.1 p.2) = [(toUp p.1, p.2)]
      unfold emitTag
      rw [hulen]
      have ht := pfAux_tag p.1 p.2 [] hn hnc hv64
      rw [List.append_nil] at ht
      rw [ht, hvtrim]
      rfl
    | cons q qs =>
      show parseFieldsAux (emitField p.1 p.2 ++ joinTags (q :: qs)) = _
      unfold emitField emitTag
      rw [hulen]
      have ht := pfAux_tag p.1 p.2 (' ' :: joinTags (q :: qs)) hn hnc hv64
      rw [pfAux_skip (by decide) (joinTags (q :: qs))] at ht
      have hshape :
          ('<' :: (p.1 ++ ':' :: (natDigits p.2.length ++ '>' :: p.2)) ++ [' '])
              ++ joinTags (q :: qs)
            = '<' :: (p.1 ++ ':' :: (natDigits p.2.length
                ++ '>' :: (p.2 ++ (' ' :: joinTags (q :: qs))))) := by
        simp [List.append_assoc]
      rw [hshape, ht, hvtrim, ih (fun x hx => hw x (by simp [hx]))]
      rfl

theorem joinTags_ne_nil (p : Str × Str) (ps : List (Str × Str)) :
    joinTags (p :: ps) ≠ [] := by
  cases ps <;> simp [joinTags, emitField, emitTag]

theorem trimStart_cons_ws {c : Char} (h : isWS c = true) (s : Str) :
    trimStart (c :: s) = trimStart s := by
  unfold trimStart
  rw [List.dropWhile_cons, if_pos (by simp [h])]

theorem trimStart_cons_not {c : Char} (h : isWS c = false) (s : Str) :
    trimStart (c :: s) = c :: s := by
  unfold trimStart
  rw [List.dropWhile_cons, if_neg (by simp [h])]

theorem dropWhile_head_false {p : Char → Bool} {l : Str}
    (h : l.dropWhile p = l) (hne : l ≠ []) :
    ∃ c cs, l = c :: cs ∧ p c = false := by
  cases l with
  | nil => exact absurd rfl hne
  | cons c cs =>
    rw [List.dropWhile_cons] at h
    by_cases hp : p c = true
    · rw [if_pos (by simp [hp])] at h
      have hlen := congrArg List.length h
      have hle := (List.dropWhile_suffix (l := cs) p).length_le
      simp at hlen
      omega
    · exact ⟨c, cs, rfl, by simpa using hp⟩

theorem trimEnd_append_ws {c : Char} (h : isWS c = true) (A : Str) :
    trimEnd (A ++ [c]) = trimEnd A := by
  unfold trimEnd
  rw [List.reverse_append, List.reverse_singleton, List.singleton_append,
    List.dropWhile_cons, if_pos (by simp [h])]

theorem trimEnd_keep {v : Str} (h : trimEnd v = v) (hne : v ≠ []) (A : Str) :
    trimEnd (A ++ v) = A ++ v := by
  have hrev : v.reverse.dropWhile isWS = v.reverse := by
    have := congrArg List.reverse h
    unfold trimEnd at this
    rw [List.reverse_reverse] at this
    exact this
  obtain ⟨c, cs, hc, hcf⟩ := dropWhile_head_false hrev (by simpa using hne)
  unfold trimEnd
  rw [List.reverse_append, hc, List.cons_append, List.dropWhile_cons,
    if_neg (by simp [hcf]), ← List.cons_append, ← hc, List.reverse_append,
    List.reverse_reverse, List.reverse_reverse]

theorem trimEnd_distrib {B : Str} (h : trimEnd B ≠ []) (A : Str) :
    trimEnd (A ++ B) = A ++ trimEnd B := by
  have hBrev : B.reverse.dropWhile isWS ≠ [] := by
    intro hx
    apply h
    unfold trimEnd
    rw [hx]
    rfl
  unfold trimEnd
  rw [List.reverse_append, List.dropWhile_append,
    if_neg (by simpa using hBrev), List.reverse_append, List.reverse_reverse]

theorem trimStart_eq_of_trim {v : Str} (h : trim v = v) : trimStart v = v := by
  have h1 : (trimStart v).length ≤ v.length :=
    (List.dropWhile_suffix isWS).length_le
  have h2 : (trimEnd (trimStart v)).length ≤ (trimStart v).length := by
    unfold trimEnd
    rw [List.length_reverse]
    calc ((trimStart v).reverse.dropWhile isWS).length
        ≤ (trimStart v).reverse.length := (List.dropWhile_suffix isWS).length_le
      _ = (trimStart v).length := List.length_reverse _
  have h3 : v.length = (trimEnd (trimStart v)).length := by
    conv_lhs => rw [← h]
    rfl
  have hsuffix : trimStart v <:+ v := List.dropWhile_suffix isWS
  exact hsuffix.eq_of_length (by omega)

theorem trimEnd_eq_of_trim {v : Str} (h : trim v = v) : trimEnd v = v := by
  have hs := trimStart_eq_of_trim h
  calc trimEnd v = trimEnd (trimStart v) := by rw [hs]
    _ = v := h

theorem emitTag_shape (n v : Str) :
    emitTag n v = ('<' :: (n ++ ':' :: (natDigits (utf8Len v) ++ ['>']))) ++ v := by
  simp [emitTag, List.append_assoc]

theorem trimEnd_concatTags : ∀ (ps : List (Str × Str)),
    (∀ p ∈ ps, wfPair p) → ps ≠ [] →
    trimEnd (concatTags ps) = joinTags ps := by
  intro ps
  induction ps with
  | nil => intro _ h; exact absurd rfl h
  | cons p ps ih =>
    intro hw _
    obtain ⟨hn, hnc, hvne, hvtrim, hvlt, hulen, hv64⟩ := hw p (by simp)
    have hvend := trimEnd_eq_of_trim hvtrim
    cases ps with
    | nil =>
      show trimEnd (emitField p.1 p.2 ++ concatTags []) = emitTag p.1 p.2
      show trimEnd ((emitTag p.1 p.2 ++ [' ']) ++ []) = emitTag p.1 p.2
      rw [List.append_nil, trimEnd_append_ws (by decide), emitTag_shape,
        trimEnd_keep hvend hvne]
    | cons q qs =>
      show trimEnd (emitField p.1 p.2 ++ concatTags (q :: qs))
        = emitField p.1 p.2 ++ joinTags (q :: qs)
      have hih := ih (fun x hx => hw x (by simp [hx])) (by simp)
      rw [trimEnd_distrib (by rw [hih]; exact joinTags_ne_nil q qs), hih]

theorem trim_wrap (ps : List (Str × Str)) (hw : ∀ p ∈ ps, wfPair p)
    (hne : ps ≠ []) :
    trim ('\n' :: '\n' :: concatTags ps) = joinTags ps := by
  obtain ⟨p, ps', rfl⟩ : ∃ p ps', ps = p :: ps' := by
    cases ps with
    | nil => exact absurd rfl hne
    | cons p ps' => exact ⟨p, ps', rfl⟩
  unfold trim
  rw [trimStart_cons_ws (by decide), trimStart_cons_ws (by decide)]
  have hhead : trimStart (concatTags (p :: ps')) = concatTags (p :: ps') := by
    rw [concatTags_cons]
    unfold emitField emitTag
    rw [List.cons_append, List.cons_append]
    exact trimStart_cons_not (by decide) _
  rw [hhead]
  exact trimEnd_concatTags (p :: ps') hw (by simp)

/-! ## Theorems: substring search and split -/

theorem isPfx_length : ∀ {p l : Str}, isPfx p l = true → p.length ≤ l.length := by
  intro p
  induction p with
  | nil => intro l _; simp
  | cons a ps ih =>
    intro l h
    cases l with
    | nil => simp [isPfx] at h
    | cons c cs =>
      unfold isPfx at h
      rw [Bool.and_eq_true] at h
      have := ih h.2
      simp only [List.length_cons]
      omega

theorem isPfx_self_append : ∀ (p t : Str), isPfx p (p ++ t) = true := by
  intro p
  induction p with
  | nil => intro t; rfl
  | cons a ps ih =>
    intro t
    rw [List.cons_append]
    unfold isPfx
    rw [Bool.and_eq_true]
    exact ⟨by simp, ih t⟩

theorem isPfx_long : ∀ (pat s : Str), pat.length ≤ s.length → ∀ (B : Str),
    isPfx pat (s ++ B) = isPfx pat s := by
  intro pat
  induction pat with
  | nil => intro s _ B; rfl
  | cons a ps ih =>
    intro s h B
    cases s with
    | nil => simp at h
    | cons c cs =>
      rw [List.cons_append]
      unfold isPfx
      simp only [List.length_cons] at h
      rw [ih cs (by omega) B]

theorem noPfx_cons {p c : Char} (h : p ≠ c) (ps cs : Str) :
    isPfx (p :: ps) (c :: cs) = false := by
  unfold isPfx
  have hb : (p == c) = false := by simp [h]
  rw [hb]
  simp

theorem noPfx_short : ∀ (s pat : Str), s.length < pat.length →
    s ≠ pat.take s.length → ∀ (B : Str), isPfx pat (s ++ B) = false := by
  intro s
  induction s with
  | nil => intro pat _ hne B; exact absurd rfl hne
  | cons c cs ih =>
    intro pat h hne B
    cases pat with
    | nil => simp at h
    | cons p ps =>
      rw [List.cons_append]
      by_cases hpc : p = c
      · subst hpc
        rw [List.length_cons, List.take_succ_cons] at hne
        have hcs : cs ≠ ps.take cs.length := by
          intro hx
          exact hne (by rw [← hx])
        have hlen : cs.length < ps.length := by
          simp only [List.length_cons] at h
          omega
        unfold isPfx
        rw [ih ps hlen hcs B]
        simp
      · exact noPfx_cons hpc ps (cs ++ B)

theorem findSub_append_shift : ∀ (A : Str) (pat B : Str),
    (∀ k, k < A.length → isPfx pat (A.drop k ++ B) = false) →
    findSub pat (A ++ B) = (findSub pat B).map (· + A.length) := by
  intro A
  induction A with
  | nil =>
    intro pat B _
    simp only [List.nil_append, List.length_nil]
    cases findSub pat B with
    | none => rfl
    | some x => simp
  | cons a A ih =>
    intro pat B hA
    rw [List.cons_append]
    have h0 : isPfx pat (a :: (A ++ B)) = false := by
      have := hA 0 (by simp)
      simpa using this
    conv_lhs => unfold findSub
    rw [h0, ih pat B (fun k hk => by
      have := hA (k + 1) (by simp; omega)
      simpa using this)]
    cases findSub pat B with
    | none => simp
    | some x =>
      simp
      omega

theorem findSub_self_append (pat T : Str) :
    findSub pat (pat ++ T) = some 0 := by
  cases pat with
  | nil =>
    cases T with
    | nil => rfl
    | cons c cs =>
      show findSub [] (c :: cs) = some 0
      unfold findSub
      rw [if_pos (show isPfx [] (c :: cs) = true from rfl)]
  | cons p ps =>
    rw [List.cons_append]
    unfold findSub
    rw [if_pos]
    rw [← List.cons_append]
    exact isPfx_self_append (p :: ps) T

theorem splitGo_none {pat T : Str} (hT : findSub pat T = none) :
    ∀ f, splitGo pat f T = [T] := by
  intro f
  cases f with
  | zero => rfl
  | succ f =>
    unfold splitGo
    rw [hT]

theorem splitOnSub_exact (A pat T : Str)
    (hA : ∀ k, k < A.length → isPfx pat (A.drop k ++ (pat ++ T)) = false)
    (hT : findSub pat T = none) :
    splitOnSub (A ++ (pat ++ T)) pat = [A, T] := by
  have hfind : findSub pat (A ++ (pat ++ T)) = some A.length := by
    rw [findSub_append_shift A pat (pat ++ T) hA, findSub_self_append]
    simp
  have htake : (A ++ (pat ++ T)).take A.length = A := List.take_left A _
  have hdrop : (A ++ (pat ++ T)).drop (A.length + pat.length) = T := by
    rw [show A ++ (pat ++ T) = (A ++ pat) ++ T by rw [List.append_assoc],
      show A.length + pat.length = (A ++ pat).length by rw [List.length_append]]
    exact List.drop_left _ _
  unfold splitOnSub
  conv_lhs => unfold splitGo
  rw [hfind]
  show (A ++ (pat ++ T)).take A.length
      :: splitGo pat ((A ++ (pat ++ T)).length)
        ((A ++ (pat ++ T)).drop (A.length + pat.length)) = [A, T]
  rw [htake, hdrop, splitGo_none hT]

/-! ## Theorems: the record sentinel does not occur inside emitted fields -/

theorem noEOR_tag (n X : Str) (hnc : ∀ c ∈ n, c ≠ ':' ∧ c ≠ '>' ∧ c ≠ '<') :
    isPfx "<EOR>".data ('<' :: (n ++ ':' :: X)) = false := by
  have heor : "<EOR>".data = ['<', 'E', 'O', 'R', '>'] := by decide
  rw [heor]
  rcases n with _ | ⟨a, _ | ⟨b, _ | ⟨c, _ | ⟨d, t⟩⟩⟩⟩
  · simp [isPfx, show ('E' == ':') = false from by decide]
  · simp [isPfx, show ('O' == ':') = false from by decide]
  · simp [isPfx, show ('R' == ':') = false from by decide]
  · simp [isPfx, show ('>' == ':') = false from by decide]
  · have hd : d ≠ '>' := ((hnc d (by simp)).2.1)
    have hgd : ('>' == d) = false := by simp [Ne.symm hd]
    simp [isPfx, hgd]

theorem emitField_shape (n v : Str) :
    emitField n v
      = '<' :: ((n ++ ':' :: (natDigits (utf8Len v) ++ '>' :: v)) ++ [' ']) := by
  simp [emitField, emitTag]

theorem tag_pos_no_eor (p : Str × Str) (hp : wfPair p) :
    ∀ k, k < (emitField p.1 p.2).length → ∀ B : Str,
    isPfx "<EOR>".data ((emitField p.1 p.2).drop k ++ B) = false := by
  obtain ⟨hn, hnc, hvne, hvtrim, hvlt, hulen, hv64⟩ := hp
  intro k hk B
  rw [emitField_shape] at hk ⊢
  cases k with
  | zero =>
    simp only [List.drop_zero]
    rw [List.cons_append]
    have hsh : ((p.1 ++ ':' :: (natDigits (utf8Len p.2) ++ '>' :: p.2)) ++ [' ']) ++ B
        = p.1 ++ ':' :: ((natDigits (utf8Len p.2) ++ '>' :: p.2) ++ ([' '] ++ B)) := by
      simp [List.append_assoc]
    rw [hsh]
    exact noEOR_tag p.1 _ hnc
  | succ j =>
    rw [List.drop_succ_cons]
    set R := (p.1 ++ ':' :: (natDigits (utf8Len p.2) ++ '>' :: p.2)) ++ [' '] with hR
    have hj : j < R.length := by
      simp only [List.length_cons] at hk
      omega
    have hne2 : R.drop j ≠ [] := by
      rw [Ne, List.drop_eq_nil_iff]
      omega
    obtain ⟨c, cs, hcs⟩ := List.exists_cons_of_ne_nil hne2
    have hcmem : c ∈ R := List.drop_subset j R (by rw [hcs]; simp)
    have hcne : c ≠ '<' := by
      intro hc
      subst hc
      rw [hR] at hcmem
      rcases List.mem_append.mp hcmem with h1 | h2
      · rcases List.mem_append.mp h1 with h3 | h4
        · exact (hnc _ h3).2.2 rfl
        · rcases List.mem_cons.mp h4 with h5 | h6
          · exact absurd h5 (by decide)
          · rcases List.mem_append.mp h6 with h7 | h8
            · have hb := natDigits_mem h7
              have h60 : ('<').toNat = 60 := by decide
              omega
            · rcases List.mem_cons.mp h8 with h9 | h10
              · exact absurd h9 (by decide)
              · exact (hvlt _ h10) rfl
      · rcases List.mem_cons.mp h2 with h5 | h6
        · exact absurd h5 (by decide)
        · simp at h6
    rw [hcs, List.cons_append]
    have heor : "<EOR>".data = '<' :: ['E', 'O', 'R', '>'] := by decide
    rw [heor]
    exact noPfx_cons (fun h => hcne h.symm) _ _

theorem body_no_eor : ∀ (ps : List (Str × Str)), (∀ p ∈ ps, wfPair p) →
    ∀ k, k < (concatTags ps).length → ∀ B : Str,
    isPfx "<EOR>".data ((concatTags ps).drop k ++ B) = false := by
  intro ps
  induction ps with
  | nil =>
    intro _ k hk
    simp [concatTags] at hk
  | cons p ps ih =>
    intro hw k hk B
    rw [concatTags_cons] at hk ⊢
    by_cases hkm : k < (emitField p.1 p.2).length
    · rw [List.drop_append_of_le_length (le_of_lt hkm), List.append_assoc]
      exact tag_pos_no_eor p (hw p (by simp)) k hkm _
    · push_neg at hkm
      rw [show k = (emitField p.1 p.2).length + (k - (emitField p.1 p.2).length)
          from by omega, List.drop_append]
      refine ih (fun x hx => hw x (by simp [hx]))
        (k - (emitField p.1 p.2).length) ?_ B
      rw [List.length_append] at hk
      omega

/-! ## Theorems: dict building and field multiset preservation -/

theorem setItem_append {r : Record} {k : Str} (h : ∀ kv ∈ r, kv.1 ≠ k)
    (v : Str) : setItem r k v = r ++ [(k, v)] := by
  induction r with
  | nil => rfl
  | cons kv rest ih =>
    unfold setItem
    rw [if_neg (h kv (by simp)), ih (fun x hx => h x (by simp [hx]))]
    rfl

theorem foldl_setItem : ∀ (l : List (Str × Str)) (d : Record),
    ((d ++ l).map Prod.fst).Nodup →
    l.foldl (fun d p => setItem d p.1 p.2) d = d ++ l := by
  intro l
  induction l with
  | nil => intro d _; simp
  | cons p l ih =>
    intro d hd
    rw [List.foldl_cons]
    have hne : ∀ kv ∈ d, kv.1 ≠ p.1 := by
      intro kv hkv hkp
      rw [List.map_append, List.nodup_append] at hd
      exact hd.2.2 (List.mem_map_of_mem Prod.fst hkv) (by rw [hkp]; simp)
    rw [setItem_append hne p.2]
    have : d ++ [(p.1, p.2)] ++ l = d ++ (p.1, p.2) :: l := by simp
    have hd2 : (((d ++ [(p.1, p.2)]) ++ l).map Prod.fst).Nodup := by
      rw [this]
      simpa using hd
    rw [ih (d ++ [(p.1, p.2)]) hd2, this]

theorem getItem_mem : ∀ {r : Record} {k v : Str},
    getItem r k = some v → (k, v) ∈ r := by
  intro r
  induction r with
  | nil => intro k v h; simp [getItem] at h
  | cons kv rest ih =>
    intro k v h
    unfold getItem at h
    by_cases hk : kv.1 = k
    · rw [if_pos hk, Option.some.injEq] at h
      rw [← hk, ← h]
      exact List.mem_cons_self kv rest
    · rw [if_neg hk] at h
      exact List.mem_cons_of_mem kv (ih h)

theorem mem_getItem : ∀ {r : Record} {k v : Str},
    (r.map Prod.fst).Nodup → (k, v) ∈ r → getItem r k = some v := by
  intro r
  induction r with
  | nil => intro k v _ h; simp at h
  | cons kv rest ih =>
    intro k v hd hm
    unfold getItem
    rcases List.mem_cons.mp hm with he | ht
    · rw [if_pos (by rw [← he]), ← he]
    · by_cases hk : kv.1 = k
      · exfalso
        rw [List.map_cons, List.nodup_cons] at hd
        apply hd.1
        rw [hk]
        exact List.mem_map_of_mem Prod.fst ht
      · rw [if_neg hk]
        exact ih (by
          rw [List.map_cons, List.nodup_cons] at hd
          exact hd.2) ht

theorem mem_priPairs {r : Record} {x : Str × Str} :
    x ∈ priPairs r ↔
      x.1 ∈ FIELD_ORDER ∧ getItem r x.1 = some x.2 ∧ x.2 ≠ [] := by
  unfold priPairs
  rw [List.mem_filterMap]
  constructor
  · rintro ⟨f, hf, hg⟩
    cases hgi : getItem r f with
    | none => simp [hgi] at hg
    | some v =>
      simp only [hgi] at hg
      by_cases hv : v = []
      · rw [if_pos hv] at hg
        simp at hg
      · rw [if_neg hv, Option.some.injEq] at hg
        subst hg
        exact ⟨hf, hgi, hv⟩
  · rintro ⟨hf, hg, hv⟩
    refine ⟨x.1, hf, ?_⟩
    simp only [hg]
    rw [if_neg hv]

theorem priPairs_keys_sublist (r : Record) :
    ((priPairs r).map Prod.fst).Sublist FIELD_ORDER := by
  unfold priPairs
  have hgen : ∀ (l : List Str),
      ((l.filterMap (fun f =>
        match getItem r f with
        | some v => if v = [] then none else some (f, v)
        | none => none)).map Prod.fst).Sublist l := by
    intro l
    induction l with
    | nil => simp
    | cons f fs ih =>
      cases hg : getItem r f with
      | none =>
        rw [List.filterMap_cons_none (by simp [hg])]
        exact ih.cons f
      | some v =>
        by_cases hv : v = []
        · rw [List.filterMap_cons_none (by simp [hg, hv])]
          exact ih.cons f
        · rw [List.filterMap_cons_some (by
            show (match getItem r f with
              | some v => if v = [] then none else some (f, v)
              | none => none) = some (f, v)
            simp only [hg]
            rw [if_neg hv])]
          rw [List.map_cons]
          exact ih.cons₂ f
  exact hgen FIELD_ORDER

theorem remPairs_eq_filter (r : Record)
    (hup : ∀ kv ∈ r, toUp kv.1 = kv.1)
    (hne : ∀ kv ∈ r, kv.2 ≠ []) :
    remPairs r = r.filter (fun kv => !decide (kv.1 ∈ FIELD_ORDER)) := by
  unfold remPairs
  induction r with
  | nil => rfl
  | cons kv rest ih =>
    have hu := hup kv (by simp)
    have hn := hne kv (by simp)
    rw [List.filter_cons]
    by_cases hm : kv.1 ∈ FIELD_ORDER
    · rw [List.filterMap_cons_none (by
        show (if toUp kv.1 ∉ FIELD_ORDER ∧ kv.2 ≠ [] then
            some (toUp kv.1, kv.2) else none) = none
        rw [if_neg]
        rw [hu]
        intro hx
        exact hx.1 hm)]
      rw [if_neg (by simp [hm])]
      exact ih (fun x hx => hup x (by simp [hx])) (fun x hx => hne x (by simp [hx]))
    · rw [List.filterMap_cons_some (by
        show (if toUp kv.1 ∉ FIELD_ORDER ∧ kv.2 ≠ [] then
            some (toUp kv.1, kv.2) else none) = some (kv.1, kv.2)
        rw [if_pos (by rw [hu]; exact ⟨hm, hn⟩), hu])]
      rw [if_pos (by simp [hm])]
      rw [ih (fun x hx => hup x (by simp [hx])) (fun x hx => hne x (by simp [hx]))]

theorem fo_nodup : FIELD_ORDER.Nodup := by decide

theorem priPairs_nodup (r : Record) : (priPairs r).Nodup :=
  List.Nodup.of_map Prod.fst ((priPairs_keys_sublist r).nodup fo_nodup)

theorem priPairs_perm_filter (r : Record)
    (hnd : (r.map Prod.fst).Nodup)
    (hne : ∀ kv ∈ r, kv.2 ≠ []) :
    (priPairs r).Perm (r.filter (fun kv => decide (kv.1 ∈ FIELD_ORDER))) := by
  have hrnd : r.Nodup := List.Nodup.of_map Prod.fst hnd
  refine (List.perm_ext_iff_of_nodup (priPairs_nodup r)
    (hrnd.filter _)).mpr ?_
  intro x
  rw [mem_priPairs, List.mem_filter]
  constructor
  · rintro ⟨hf, hg, hv⟩
    refine ⟨?_, by simpa using hf⟩
    have := getItem_mem hg
    cases x
    exact this
  · rintro ⟨hm, hf⟩
    have hx : (x.1, x.2) ∈ r := by cases x; exact hm
    refine ⟨by simpa using hf, mem_getItem hnd hx, hne x hm⟩

theorem pairs_perm (r : Record)
    (hnd : (r.map Prod.fst).Nodup)
    (hup : ∀ kv ∈ r, toUp kv.1 = kv.1)
    (hne : ∀ kv ∈ r, kv.2 ≠ []) :
    (priPairs r ++ remPairs r).Perm r := by
  rw [remPairs_eq_filter r hup hne]
  exact (List.Perm.append (priPairs_perm_filter r hnd hne)
    (List.Perm.refl _)).trans (List.filter_append_perm _ r)

theorem fo_upper : ∀ f ∈ FIELD_ORDER, toUp f = f := by decide

theorem fo_names_wf : ∀ f ∈ FIELD_ORDER,
    f ≠ [] ∧ ∀ c ∈ f, c ≠ ':' ∧ c ≠ '>' ∧ c ≠ '<' := by decide

theorem priPairs_wf (r : Record)
    (hvals : ∀ kv ∈ r, kv.2 ≠ [] ∧ trim kv.2 = kv.2 ∧ kv.2.length < 2 ^ 64 ∧
      ∀ c ∈ kv.2, c.toNat ≤ 127 ∧ c ≠ '<') :
    ∀ p ∈ priPairs r, wfPair p := by
  intro p hp
  obtain ⟨hf, hg, hv⟩ := mem_priPairs.mp hp
  have hmem := getItem_mem hg
  have hvw := hvals (p.1, p.2) hmem
  obtain ⟨hfo1, hfo2⟩ := fo_names_wf p.1 hf
  exact ⟨hfo1, hfo2, hv, hvw.2.1,
    fun c hc => ((hvw.2.2.2 c hc).2),
    utf8Len_ascii (fun c hc => (hvw.2.2.2 c hc).1), hvw.2.2.1⟩

theorem remPairs_wf (r : Record)
    (hkeys : ∀ kv ∈ r, kv.1 ≠ [] ∧ toUp kv.1 = kv.1 ∧
      ∀ c ∈ kv.1, c.toNat ≤ 127 ∧ c ≠ ':' ∧ c ≠ '>' ∧ c ≠ '<')
    (hvals : ∀ kv ∈ r, kv.2 ≠ [] ∧ trim kv.2 = kv.2 ∧ kv.2.length < 2 ^ 64 ∧
      ∀ c ∈ kv.2, c.toNat ≤ 127 ∧ c ≠ '<') :
    ∀ p ∈ remPairs r, wfPair p := by
  intro p hp
  unfold remPairs at hp
  rw [List.mem_filterMap] at hp
  obtain ⟨kv, hkv, hg⟩ := hp
  by_cases hcond : toUp kv.1 ∉ FIELD_ORDER ∧ kv.2 ≠ []
  · rw [if_pos hcond, Option.some.injEq] at hg
    subst hg
    have hk := hkeys kv hkv
    have hv := hvals kv hkv
    rw [hk.2.1]
    exact ⟨hk.1, fun c hc => ⟨(hk.2.2 c hc).2.1, (hk.2.2 c hc).2.2.1,
        (hk.2.2 c hc).2.2.2⟩,
      hv.1, hv.2.1, fun c hc => (hv.2.2.2 c hc).2,
      utf8Len_ascii (fun c hc => (hv.2.2.2 c hc).1), hv.2.2.1⟩
  · rw [if_neg hcond] at hg
    simp at hg

theorem stream_keys_nodup (r : Record)
    (hnd : (r.map Prod.fst).Nodup)
    (hup : ∀ kv ∈ r, toUp kv.1 = kv.1)
    (hne : ∀ kv ∈ r, kv.2 ≠ []) :
    (((priPairs r ++ remPairs r).map Prod.fst)).Nodup := by
  rw [List.map_append, List.nodup_append]
  refine ⟨(priPairs_keys_sublist r).nodup fo_nodup, ?_, ?_⟩
  · rw [remPairs_eq_filter r hup hne]
    have hsub : ((r.filter (fun kv => !decide (kv.1 ∈ FIELD_ORDER))).map
        Prod.fst).Sublist (r.map Prod.fst) :=
      (List.filter_sublist r).map Prod.fst
    exact hsub.nodup hnd
  · intro a ha hb
    have hafo : a ∈ FIELD_ORDER :=
      (priPairs_keys_sublist r).subset ha
    rw [remPairs_eq_filter r hup hne] at hb
    rw [List.mem_map] at hb
    obtain ⟨kv, hkv, hfst⟩ := hb
    rw [List.mem_filter] at hkv
    have := hkv.2
    rw [← hfst] at hafo
    simp [hafo] at this

/-! ## Theorems: export text shape and header search -/

theorem export_split (rs : List Record) (hdr : Option Record) (pid ver : Str) :
    export_adi rs hdr pid ver = export_adi [] hdr pid ver
      ++ rs.foldl (fun out r => out ++ format_record r ++ ['\n']) [] := by
  unfold export_adi
  simp [List.append_assoc]

theorem export_empty_const :
    export_adi [] none "W4GNS-Logger".data "1.0".data
      = hdrC ++ ("<EOH>".data ++ ['\n', '\n']) := by decide

theorem hdrC_cond : ∀ k, k < hdrC.length → ∀ B : Str,
    isPfx "<EOH>".data (hdrC.drop k ++ B) = false := by
  have hdec1 : ∀ k, k < hdrC.length →
      isPfx "<EOH>".data (hdrC.drop k) = false := by decide
  have hdec2 : ∀ k, k < hdrC.length →
      (hdrC.drop k).length < ("<EOH>".data).length →
      hdrC.drop k ≠ "<EOH>".data.take (hdrC.drop k).length := by decide
  intro k hk B
  by_cases hlen : ("<EOH>".data).length ≤ (hdrC.drop k).length
  · rw [isPfx_long _ _ hlen B]
    exact hdec1 k hk
  · push_neg at hlen
    exact noPfx_short _ _ hlen (hdec2 k hk hlen) B

theorem upFst_id (ps : List (Str × Str)) (h : ∀ p ∈ ps, toUp p.1 = p.1) :
    ps.map (fun p => (toUp p.1, p.2)) = ps := by
  rw [List.map_congr_left (fun p hp =>
    show (toUp p.1, p.2) = p by rw [h p hp])]
  exact List.map_id ps

theorem wrap_no_eor (ps : List (Str × Str)) (hw : ∀ p ∈ ps, wfPair p) :
    ∀ k, k < ('\n' :: '\n' :: concatTags ps).length → ∀ B : Str,
    isPfx "<EOR>".data ((('\n' :: '\n' :: concatTags ps).drop k) ++ B)
      = false := by
  intro k hk B
  rcases k with _ | (_ | n)
  · rw [List.drop_zero, List.cons_append,
      show ("<EOR>".data : Str) = '<' :: ['E', 'O', 'R', '>'] from by decide]
    exact noPfx_cons (by decide) _ _
  · rw [List.drop_succ_cons, List.drop_zero, List.cons_append,
      show ("<EOR>".data : Str) = '<' :: ['E', 'O', 'R', '>'] from by decide]
    exact noPfx_cons (by decide) _ _
  · rw [List.drop_succ_cons, List.drop_succ_cons]
    refine body_no_eor _ hw n ?_ _
    simp only [List.length_cons] at hk
    omega

theorem parse_adi_hdr (B : Str) :
    (parse_adi (hdrC ++ ("<EOH>".data ++ B))).1
      = (splitOnSub B "<EOR>".data).foldl (fun acc chunk =>
          let t := trim chunk
          if t = [] then acc
          else
            let rec1 := parse_fields t
            if rec1 = [] then acc else acc ++ [rec1]) ([] : List Record) := by
  have hfind : findSub "<EOH>".data (hdrC ++ ("<EOH>".data ++ B))
      = some hdrC.length := by
    rw [findSub_append_shift hdrC _ _ (fun k hk => hdrC_cond k hk _),
      findSub_self_append]
    simp
  have hdrop : ((hdrC ++ ("<EOH>".data ++ B)).drop hdrC.length).drop 5 = B := by
    rw [List.drop_left,
      show (5 : ℕ) = ("<EOH>".data).length from by decide, List.drop_left]
  unfold parse_adi
  rw [hfind]
  show (splitOnSub (((hdrC ++ ("<EOH>".data ++ B)).drop hdrC.length).drop 5)
      "<EOR>".data).foldl (fun acc chunk =>
        let t := trim chunk
        if t = [] then acc
        else
          let rec1 := parse_fields t
          if rec1 = [] then acc else acc ++ [rec1]) ([] : List Record)
    = (splitOnSub B "<EOR>".data).foldl (fun acc chunk =>
        let t := trim chunk
        if t = [] then acc
        else
          let rec1 := parse_fields t
          if rec1 = [] then acc else acc ++ [rec1]) ([] : List Record)
  rw [hdrop]

/-- Claim C3 (amended): for every record whose keys are distinct, non-empty,
already uppercase, ASCII and free of the tag meta-characters colon, closing
bracket and opening bracket, and whose values are non-empty, fixed under
whitespace trimming, ASCII, free of the opening bracket and shorter than
2^64, with the required CALL, QSO_DATE and TIME_ON fields present,
exporting the single record and re-parsing the text yields exactly one
record whose name-to-value pairs are a permutation of the original record.
Each hypothesis is load-bearing: untrimmed values are trimmed on re-parse,
non-ASCII values shift the byte-counted LENGTH token, non-normalized keys
are dropped by the case-sensitive priority lookup, and an opening bracket
in a value can place the record sentinel inside the value, where the
splitting pass of the parser cuts the value apart. -/
theorem c3_adif_round_trip (r : Record)
    (hnd : (r.map Prod.fst).Nodup)
    (hkeys : ∀ kv ∈ r, kv.1 ≠ [] ∧ toUp kv.1 = kv.1 ∧
      ∀ c ∈ kv.1, c.toNat ≤ 127 ∧ c ≠ ':' ∧ c ≠ '>' ∧ c ≠ '<')
    (hvals : ∀ kv ∈ r, kv.2 ≠ [] ∧ trim kv.2 = kv.2 ∧ kv.2.length < 2 ^ 64 ∧
      ∀ c ∈ kv.2, c.toNat ≤ 127 ∧ c ≠ '<')
    (hcall : getItem r "CALL".data ≠ none)
    (hdate : getItem r "QSO_DATE".data ≠ none)
    (htime : getItem r "TIME_ON".data ≠ none) :
    ∃ rec0,
      (parse_adi (export_adi [r] none "W4GNS-Logger".data "1.0".data)).1
        = [rec0] ∧ rec0.Perm r := by
  have hup : ∀ kv ∈ r, toUp kv.1 = kv.1 := fun kv h => (hkeys kv h).2.1
  have hneV : ∀ kv ∈ r, kv.2 ≠ [] := fun kv h => (hvals kv h).1
  have hw : ∀ p ∈ priPairs r ++ remPairs r, wfPair p := by
    intro p hp
    rcases List.mem_append.mp hp with h | h
    · exact priPairs_wf r hvals p h
    · exact remPairs_wf r hkeys hvals p h
  obtain ⟨cv, hcv⟩ : ∃ v, getItem r "CALL".data = some v := by
    cases h : getItem r "CALL".data with
    | none => exact absurd h hcall
    | some v => exact ⟨v, rfl⟩
  have hfo : ("CALL".data : Str) ∈ FIELD_ORDER := by decide
  have hcmem : (("CALL".data, cv) : Str × Str) ∈ priPairs r :=
    mem_priPairs.mpr ⟨hfo, hcv, hneV _ (getItem_mem hcv)⟩
  have hpsne : priPairs r ++ remPairs r ≠ [] := by
    intro h
    rw [List.append_eq_nil] at h
    rw [h.1] at hcmem
    exact absurd hcmem (List.not_mem_nil _)
  have hupPs : ∀ p ∈ priPairs r ++ remPairs r, toUp p.1 = p.1 := by
    intro p hp
    rcases List.mem_append.mp hp with h | h
    · exact fo_upper p.1 (mem_priPairs.mp h).1
    · unfold remPairs at h
      rw [List.mem_filterMap] at h
      obtain ⟨kv, hkv, hg⟩ := h
      by_cases hcond : toUp kv.1 ∉ FIELD_ORDER ∧ kv.2 ≠ []
      · rw [if_pos hcond, Option.some.injEq] at hg
        subst hg
        have h1 := hup kv hkv
        show toUp (toUp kv.1) = toUp kv.1
        rw [h1]
        exact h1
      · rw [if_neg hcond] at hg
        simp at hg
  have hjne : joinTags (priPairs r ++ remPairs r) ≠ [] := by
    cases hps : priPairs r ++ remPairs r with
    | nil => exact absurd hps hpsne
    | cons p ps' => exact joinTags_ne_nil p ps'
  have hpf : parse_fields (joinTags (priPairs r ++ remPairs r))
      = priPairs r ++ remPairs r := by
    unfold parse_fields
    rw [pfAux_joinTags _ hw, upFst_id _ hupPs,
      foldl_setItem _ [] (by simpa using stream_keys_nodup r hnd hup hneV)]
    simp
  refine ⟨priPairs r ++ remPairs r, ?_, pairs_perm r hnd hup hneV⟩
  have htext : export_adi [r] none "W4GNS-Logger".data "1.0".data
      = hdrC ++ ("<EOH>".data ++ ('\n' :: '\n' ::
          (concatTags (priPairs r ++ remPairs r)
            ++ ("<EOR>".data ++ ['\n'])))) := by
    rw [export_split, export_empty_const, List.foldl_cons, List.foldl_nil,
      format_record_spec r]
    simp [List.append_assoc]
  rw [htext, parse_adi_hdr,
    show ('\n' :: '\n' :: (concatTags (priPairs r ++ remPairs r)
        ++ ("<EOR>".data ++ ['\n'])))
      = ('\n' :: '\n' :: concatTags (priPairs r ++ remPairs r))
        ++ ("<EOR>".data ++ ['\n']) from by simp,
    splitOnSub_exact _ _ _ (fun k hk => wrap_no_eor _ hw k hk _) (by decide)]
  simp only [List.foldl_cons, List.foldl_nil]
  rw [trim_wrap _ hw hpsne, if_neg hjne, hpf, if_neg hpsne,
    show trim ['\n'] = ([] : Str) from by decide, if_pos rfl]
  simp

set_option maxRecDepth 8192 in
theorem c3_adif_round_trip_witness :
    ∃ rec0,
      (parse_adi (export_adi
          [[("CALL".data, "W4GNS".data), ("QSO_DATE".data, "20240101".data),
            ("TIME_ON".data, "1234".data)]]
          none "W4GNS-Logger".data "1.0".data)).1
        = [rec0]
      ∧ rec0.Perm [("CALL".data, "W4GNS".data),
          ("QSO_DATE".data, "20240101".data), ("TIME_ON".data, "1234".data)] :=
  c3_adif_round_trip
    [("CALL".data, "W4GNS".data), ("QSO_DATE".data, "20240101".data),
      ("TIME_ON".data, "1234".data)]
    (by decide) (by decide) (by decide) (by decide) (by decide) (by decide)

set_option maxRecDepth 8192 in
/-- Claim C3 (counterexample): a record whose required CALL, QSO_DATE and
TIME_ON fields are all present and non-empty but whose CALL value carries a
leading space does not round-trip to a field-equal record: the parser trims
the value, so the first re-parsed record holds CALL with the value A rather
than the original value with the space. -/
theorem c3_whitespace_counterexample :
    (parse_adi (export_adi
        [[("CALL".data, " A".data), ("QSO_DATE".data, "20240101".data),
          ("TIME_ON".data, "1234".data)]]
        none "W4GNS-Logger".data "1.0".data)).1
      = [[("CALL".data, "A".data), ("QSO_DATE".data, "20240101".data),
          ("TIME_ON".data, "1234".data)]]
    ∧ (("A".data : Str) ≠ " A".data) := by decide

end W4G
